import Mathlib

/-!
# lokimq::simple_string_view

A verification development for `lokimq/string_view.h`, the fallback
implementation of `std::string_view` used when the standard library does not
provide one.

Modelling conventions.

* A `char` is a byte, `Fin 256`; `std::char_traits<char>` orders bytes by their
  unsigned value.
* `size_t` is a 64-bit unsigned integer.  Values are natural numbers, and each
  arithmetic operation of the source that can wrap is written with an explicit
  reduction modulo `2 ^ 64` (`size_add`, `size_sub`).
* A `const char*` is a pair of the character array it points into and an offset
  into that array (`CharPtr`).  Pointer arithmetic moves the offset.  Reading
  outside the array, which is undefined behaviour in C++, yields the byte `0`.
* A `std::string` is the list of its bytes.
* `throw std::out_of_range` is the error case of `Except`.
* Loops are recursive functions on a fuel argument.  Running out of fuel is the
  result `none`; it is never confused with a value the source returns.
-/

namespace lokimq

/-! ## Machine model -/

/-- One `char`, seen through `unsigned char` as `std::char_traits<char>` does. -/
abbrev Byte := Fin 256

/-- The number of values of `size_t`. -/
def SIZE_MOD : Nat := 2 ^ 64

/-- Unsigned addition on `size_t`. -/
def size_add (a b : Nat) : Nat := (a + b) % SIZE_MOD

/-- Unsigned subtraction on `size_t`. -/
def size_sub (a b : Nat) : Nat := (a % SIZE_MOD + (SIZE_MOD - b % SIZE_MOD)) % SIZE_MOD

/-- The constant `std::string::npos`, that is `size_t(-1)`. -/
def npos : Nat := SIZE_MOD - 1

/-- A `const char*`: the array pointed into and the offset of the pointee. -/
structure CharPtr where
  buf : List Byte
  off : Nat
deriving DecidableEq, Repr

/-- The null pointer: there is nothing to read behind it. -/
def CharPtr.null : CharPtr := ⟨[], 0⟩

/-- Pointer arithmetic `p + n`. -/
def CharPtr.add (p : CharPtr) (n : Nat) : CharPtr := ⟨p.buf, p.off + n⟩

/-- Dereference `*p`. -/
def CharPtr.deref (p : CharPtr) : Byte := p.buf.getD p.off 0

/-- The function `std::char_traits<char>::compare(s1, s2, n)` of the standard
library: the first `n` characters of `s1` and `s2` are compared
lexicographically by unsigned value; the result is negative, zero or positive. -/
def traits_compare (s1 s2 : CharPtr) : Nat → Int
  | 0 => 0
  | n + 1 =>
    if s1.deref < s2.deref then -1
    else if s2.deref < s1.deref then 1
    else traits_compare (s1.add 1) (s2.add 1) n

/-- The constructor `std::string(const char* s, size_t n)` of the standard
library: the `n` characters starting at `s`. -/
def string_of_ptr (s : CharPtr) : Nat → List Byte
  | 0 => []
  | n + 1 => s.deref :: string_of_ptr (s.add 1) n

/-- The function `std::char_traits<char>::copy(dest, src, n)` of the standard
library: the `n` characters starting at `src` are written to `dest`, `dest + 1`,
and so on.  The result is the array that `dest` points into after the writes;
a write outside that array, undefined behaviour in C++, is dropped. -/
def traits_copy (dest src : CharPtr) : Nat → List Byte
  | 0 => dest.buf
  | n + 1 => traits_copy ⟨dest.buf.set dest.off src.deref, dest.off + 1⟩ (src.add 1) n

/-- The exception `std::out_of_range`, with its message. -/
structure out_of_range where
  what : String
deriving DecidableEq, Repr

/-! ## The class -/

/-- The class `simple_string_view`: `const char *data_; size_t size_;`. -/
structure simple_string_view where
  data_ : CharPtr
  size_ : Nat
deriving DecidableEq, Repr

namespace simple_string_view

/-- The default constructor: `data_{nullptr}, size_{0}`. -/
def mk_empty : simple_string_view := ⟨CharPtr.null, 0⟩

/-- The constructor from `const std::string&`:
`data_{str.data()}, size_{str.size()}`. -/
def of_string (str : List Byte) : simple_string_view := ⟨⟨str, 0⟩, str.length⟩

/-- The constructor from a pointer and a size. -/
def of_ptr (data : CharPtr) (size : Nat) : simple_string_view := ⟨data, size⟩

/-- The accessor `data()`. -/
def data (self : simple_string_view) : CharPtr := self.data_

/-- The accessor `size()`. -/
def size (self : simple_string_view) : Nat := self.size_

/-- The query `empty()`. -/
def empty (self : simple_string_view) : Bool := self.size_ == 0

/-- The conversion `operator std::string`: `return {data_, size_};`. -/
def to_string (self : simple_string_view) : List Byte :=
  string_of_ptr self.data_ self.size_

/-- The unchecked `operator[]`: `return data_[pos];`. -/
def index (self : simple_string_view) (pos : Nat) : Byte :=
  (self.data_.add pos).deref

/-- The method `remove_prefix`: `data_ += n; size_ -= n;`. -/
def remove_prefix (self : simple_string_view) (n : Nat) : simple_string_view :=
  ⟨self.data_.add n, size_sub self.size_ n⟩

/-- The method `remove_suffix`: `size_ -= n;`. -/
def remove_suffix (self : simple_string_view) (n : Nat) : simple_string_view :=
  ⟨self.data_, size_sub self.size_ n⟩

/-- The checked accessor `at`. -/
def at_ (self : simple_string_view) (pos : Nat) : Except out_of_range Byte :=
  if pos ≥ self.size then Except.error ⟨"invalid string_view index"⟩
  else Except.ok (self.data_.add pos).deref

/-- The method `substr(pos, count)`; the default arguments of the source are
`pos = 0` and `count = npos`. -/
def substr (self : simple_string_view) (pos count : Nat) :
    Except out_of_range simple_string_view :=
  if pos > self.size then Except.error ⟨"invalid substr range"⟩
  else
    let result := self
    let result := if pos > 0 then result.remove_prefix pos else result
    let result :=
      if count < result.size then result.remove_suffix (size_sub result.size count)
      else result
    Except.ok result

/-- The loop of `find`:
`for (...; pos <= max_pos; ++pos) if (0 == compare(...)) return pos; return npos;`.
The first argument is the fuel; `none` means that it ran out. -/
def find_loop (self v : simple_string_view) (max_pos : Nat) : Nat → Nat → Option Nat
  | 0, _ => none
  | fuel + 1, pos =>
    if pos ≤ max_pos then
      if 0 = traits_compare v.data_ (self.data_.add pos) v.size_ then some pos
      else find_loop self v max_pos fuel (size_add pos 1)
    else some npos

/-- The method `find(simple_string_view v, size_t pos)`; the default argument of
the source is `pos = 0`.  The loop gets `size_ + 2` units of fuel. -/
def find (self v : simple_string_view) (pos : Nat) : Option Nat :=
  if pos > self.size_ ∨ v.size_ > self.size_ then some npos
  else find_loop self v (size_sub self.size_ v.size_) (self.size_ + 2) pos

/-- The overload `find(char c, size_t pos)`: `find({&c, 1}, pos)`. -/
def find_char (self : simple_string_view) (c : Byte) (pos : Nat) : Option Nat :=
  self.find ⟨⟨[c], 0⟩, 1⟩ pos

/-- The method `copy(dest, count, pos)`; the default argument of the source is
`pos = 0`.  The destination is an array of its own, apart from the one the view
points into.  The first component is the array behind `dest` when the call
ends, by return or by throw; the second is what the call returns or throws. -/
def copy (self : simple_string_view) (dest : CharPtr) (count pos : Nat) :
    List Byte × Except out_of_range Nat :=
  if pos > self.size then (dest.buf, Except.error ⟨"invalid copy pos"⟩)
  else
    let rcount := min count (size_sub self.size_ pos)
    (traits_copy dest (self.data_.add pos) rcount, Except.ok rcount)

/-- The loop of `rfind`:
`for (...; pos <= max_pos; --pos) if (0 == compare(...)) return pos; return npos;`.
The first argument is the fuel; `none` means that it ran out. -/
def rfind_loop (self v : simple_string_view) (max_pos : Nat) : Nat → Nat → Option Nat
  | 0, _ => none
  | fuel + 1, pos =>
    if pos ≤ max_pos then
      if 0 = traits_compare v.data_ (self.data_.add pos) v.size_ then some pos
      else rfind_loop self v max_pos fuel (size_sub pos 1)
    else some npos

/-- The method `rfind(simple_string_view v, size_t pos)`; the default argument
of the source is `pos = npos`.  The loop gets `size_ + 2` units of fuel. -/
def rfind (self v : simple_string_view) (pos : Nat) : Option Nat :=
  if v.size_ > self.size_ then some npos
  else
    let max_pos := size_sub self.size_ v.size_
    rfind_loop self v max_pos (self.size_ + 2) (min pos max_pos)

/-- The overload `rfind(char c, size_t pos)`: `rfind({&c, 1}, pos)`. -/
def rfind_char (self : simple_string_view) (c : Byte) (pos : Nat) : Option Nat :=
  self.rfind ⟨⟨[c], 0⟩, 1⟩ pos

/-- The inner loop `for (char c : v) if (x == c) return ...;` of `find_first_of`
and `find_last_of`, over the `n` characters from `p` on: whether the `return`
is reached. -/
def some_char_eq (p : CharPtr) : Nat → Byte → Bool
  | 0, _ => false
  | n + 1, x => if x = p.deref then true else some_char_eq (p.add 1) n x

/-- The inner loop of `find_first_not_of` and `find_last_not_of`,
`bool none = true; for (char c : v) if (x == c) { none = false; break; }`,
over the `n` characters from `p` on: the value of `none` after the loop. -/
def no_char_eq (p : CharPtr) : Nat → Byte → Bool
  | 0, _ => true
  | n + 1, x => if x = p.deref then false else no_char_eq (p.add 1) n x

/-- The loop of `find_first_of`: `for (; pos < size_; ++pos) ...; return npos;`.
The first argument is the fuel; `none` means that it ran out. -/
def find_first_of_loop (self v : simple_string_view) : Nat → Nat → Option Nat
  | 0, _ => none
  | fuel + 1, pos =>
    if pos < self.size_ then
      if some_char_eq v.data_ v.size_ (self.data_.add pos).deref then some pos
      else find_first_of_loop self v fuel (size_add pos 1)
    else some npos

/-- The method `find_first_of(simple_string_view v, size_t pos)`; the default
argument of the source is `pos = 0`.  The loop gets `size_ + 2` units of fuel. -/
def find_first_of (self v : simple_string_view) (pos : Nat) : Option Nat :=
  find_first_of_loop self v (self.size_ + 2) pos

/-- The overload `find_first_of(char c, size_t pos)`:
`find_first_of({&c, 1}, pos)`. -/
def find_first_of_char (self : simple_string_view) (c : Byte) (pos : Nat) : Option Nat :=
  self.find_first_of ⟨⟨[c], 0⟩, 1⟩ pos

/-- The loop of `find_last_of`:
`for (size_t i = last_pos; i <= last_pos; --i) ...; return npos;`.
The first argument is the fuel; `none` means that it ran out. -/
def find_last_of_loop (self v : simple_string_view) (last_pos : Nat) :
    Nat → Nat → Option Nat
  | 0, _ => none
  | fuel + 1, i =>
    if i ≤ last_pos then
      if some_char_eq v.data_ v.size_ (self.data_.add i).deref then some i
      else find_last_of_loop self v last_pos fuel (size_sub i 1)
    else some npos

/-- The method `find_last_of(simple_string_view v, size_t pos)`; the default
argument of the source is `pos = npos`.  The loop gets `size_ + 2` units of
fuel. -/
def find_last_of (self v : simple_string_view) (pos : Nat) : Option Nat :=
  if self.size_ = 0 then some npos
  else
    let last_pos := min pos (size_sub self.size_ 1)
    find_last_of_loop self v last_pos (self.size_ + 2) last_pos

/-- The overload `find_last_of(char c, size_t pos)`:
`find_last_of({&c, 1}, pos)`. -/
def find_last_of_char (self : simple_string_view) (c : Byte) (pos : Nat) : Option Nat :=
  self.find_last_of ⟨⟨[c], 0⟩, 1⟩ pos

/-- The loop of `find_first_not_of`:
`for (; pos < size_; ++pos) { ...; if (none) return pos; } return npos;`.
The first argument is the fuel; `none` means that it ran out. -/
def find_first_not_of_loop (self v : simple_string_view) : Nat → Nat → Option Nat
  | 0, _ => none
  | fuel + 1, pos =>
    if pos < self.size_ then
      if no_char_eq v.data_ v.size_ (self.data_.add pos).deref then some pos
      else find_first_not_of_loop self v fuel (size_add pos 1)
    else some npos

/-- The method `find_first_not_of(simple_string_view v, size_t pos)`; the
default argument of the source is `pos = 0`.  The loop gets `size_ + 2` units of
fuel. -/
def find_first_not_of (self v : simple_string_view) (pos : Nat) : Option Nat :=
  find_first_not_of_loop self v (self.size_ + 2) pos

/-- The loop of `find_last_not_of`:
`for (size_t i = last_pos; i <= last_pos; --i) { ...; if (none) return i; }
return npos;`.  The first argument is the fuel; `none` means that it ran out. -/
def find_last_not_of_loop (self v : simple_string_view) (last_pos : Nat) :
    Nat → Nat → Option Nat
  | 0, _ => none
  | fuel + 1, i =>
    if i ≤ last_pos then
      if no_char_eq v.data_ v.size_ (self.data_.add i).deref then some i
      else find_last_not_of_loop self v last_pos fuel (size_sub i 1)
    else some npos

/-- The method `find_last_not_of(simple_string_view v, size_t pos)`; the default
argument of the source is `pos = npos`.  The loop gets `size_ + 2` units of
fuel. -/
def find_last_not_of (self v : simple_string_view) (pos : Nat) : Option Nat :=
  if self.size_ = 0 then some npos
  else
    let last_pos := min pos (size_sub self.size_ 1)
    find_last_not_of_loop self v last_pos (self.size_ + 2) last_pos

/-- The method `compare`. -/
def compare (self s : simple_string_view) : Int :=
  let cmp := traits_compare self.data_ s.data (min self.size_ s.size)
  if cmp ≠ 0 then cmp
  else if self.size_ < s.size then -1
  else if self.size_ > s.size then 1
  else 0

end simple_string_view

open simple_string_view

/-- The free function `operator==`. -/
def op_eq (lhs rhs : simple_string_view) : Bool :=
  lhs.size == rhs.size && 0 == traits_compare lhs.data rhs.data lhs.size

/-- The free function `operator!=`. -/
def op_ne (lhs rhs : simple_string_view) : Bool := !(op_eq lhs rhs)

/-- The free function `operator<`. -/
def op_lt (lhs rhs : simple_string_view) : Bool := decide (lhs.compare rhs < 0)

/-- The free function `operator<=`. -/
def op_le (lhs rhs : simple_string_view) : Bool := decide (lhs.compare rhs ≤ 0)

/-- The free function `operator>`. -/
def op_gt (lhs rhs : simple_string_view) : Bool := decide (lhs.compare rhs > 0)

/-- The free function `operator>=`. -/
def op_ge (lhs rhs : simple_string_view) : Bool := decide (lhs.compare rhs ≥ 0)

/-! ## Specification vocabulary -/

/-- The needle `v` occurs in `V` at index `i`: the `v.size()` bytes of `V` from
`i` on lie inside `V` and equal the bytes of `v`. -/
def occurs_at (V v : simple_string_view) (i : Nat) : Prop :=
  i + v.size_ ≤ V.size_ ∧ ∀ j, j < v.size_ → V.index (i + j) = v.index j

/-- The views `a` and `b` hold the same byte sequence: the same size and the
same byte at every index below it. -/
def same_bytes (a b : simple_string_view) : Prop :=
  a.size_ = b.size_ ∧ ∀ i, i < a.size_ → a.index i = b.index i

/-- The byte sequence of `a` is lexicographically less than that of `b`, bytes
ordered by unsigned value: the two agree on their first `k` bytes, and then
either `a` ends and `b` goes on (a proper prefix), or both go on and the byte
of `a` at `k` is the smaller one. -/
def lex_less (a b : simple_string_view) : Prop :=
  ∃ k, k ≤ a.size_ ∧ k ≤ b.size_ ∧ (∀ i, i < k → a.index i = b.index i) ∧
    ((k = a.size_ ∧ k < b.size_) ∨
      (k < a.size_ ∧ k < b.size_ ∧ (a.index k).val < (b.index k).val))

/-- The byte `x` is one of the bytes of the character set `v`. -/
def in_set (v : simple_string_view) (x : Byte) : Prop :=
  ∃ j, j < v.size_ ∧ v.index j = x

/-- An upward scan: from `pos` on, while `pos < lim`, return the first index
that `hit` accepts, and `npos` when the scan leaves the range.  The loops of
`find_first_of` and `find_first_not_of` are instances. -/
def scan_up (hit : Nat → Bool) (lim : Nat) : Nat → Nat → Option Nat
  | 0, _ => none
  | fuel + 1, pos =>
    if pos < lim then
      if hit pos then some pos else scan_up hit lim fuel (size_add pos 1)
    else some npos

/-- A downward scan: from `i` on, while `i <= bound`, return the first index
that `hit` accepts, and `npos` when the scan leaves the range.  The loops of
`rfind`, `find_last_of` and `find_last_not_of` are instances. -/
def scan_down (hit : Nat → Bool) (bound : Nat) : Nat → Nat → Option Nat
  | 0, _ => none
  | fuel + 1, i =>
    if i ≤ bound then
      if hit i then some i else scan_down hit bound fuel (size_sub i 1)
    else some npos

/-! ## Sample views -/

/-- The bytes of an ASCII literal. -/
def bytes (s : String) : List Byte := s.toList.map (fun c => Fin.ofNat c.toNat)

/-- The view over the literal `"hello world"`. -/
def hello_world : simple_string_view := of_string (bytes "hello world")

/-- The empty view over the literal `""`. -/
def empty_view : simple_string_view := of_string []

/-- A destination array of eight bytes `'.'`, and a pointer to its third byte. -/
def dots : CharPtr := ⟨List.replicate 8 46, 2⟩

/-! ## Pointers and `char_traits` -/

@[simp] theorem CharPtr.add_zero (p : CharPtr) : p.add 0 = p := rfl

@[simp] theorem CharPtr.add_add (p : CharPtr) (a b : Nat) :
    (p.add a).add b = p.add (a + b) := by
  simp [CharPtr.add, Nat.add_assoc]

theorem SIZE_MOD_eq : SIZE_MOD = 18446744073709551616 := by decide

theorem npos_eq : npos = 18446744073709551615 := by decide

theorem size_sub_of_le {a b : Nat} (ha : a ≤ npos) (hb : b ≤ a) : size_sub a b = a - b := by
  unfold size_sub
  rw [npos_eq] at ha
  rw [SIZE_MOD_eq]
  omega

theorem size_add_of_lt {a b : Nat} (h : a + b ≤ npos) : size_add a b = a + b := by
  unfold size_add
  rw [npos_eq] at h
  rw [SIZE_MOD_eq]
  omega

/-- The result of `char_traits::compare` is zero exactly when the two ranges
hold the same bytes. -/
theorem traits_compare_eq_zero_iff (n : Nat) (p q : CharPtr) :
    traits_compare p q n = 0 ↔ ∀ j, j < n → (p.add j).deref = (q.add j).deref := by
  induction n generalizing p q with
  | zero => simp [traits_compare]
  | succ n ih =>
    unfold traits_compare
    by_cases h1 : p.deref < q.deref
    · simp only [h1, if_true]
      constructor
      · intro h; exact absurd h (by decide)
      · intro h
        have := h 0 (Nat.succ_pos n)
        simp at this
        exact absurd h1 (by rw [this]; exact lt_irrefl _)
    · by_cases h2 : q.deref < p.deref
      · simp only [h1, h2, if_true, if_false]
        constructor
        · intro h; exact absurd h (by decide)
        · intro h
          have := h 0 (Nat.succ_pos n)
          simp at this
          exact absurd h2 (by rw [this]; exact lt_irrefl _)
      · simp only [h1, h2, if_false]
        rw [ih]
        have h0 : p.deref = q.deref := le_antisymm (not_lt.mp h2) (not_lt.mp h1)
        constructor
        · intro h j hj
          cases j with
          | zero => simpa using h0
          | succ j =>
            have := h j (by omega)
            simpa [Nat.add_comm] using this
        · intro h j hj
          have := h (j + 1) (by omega)
          simpa [Nat.add_comm] using this

/-- The result of `char_traits::compare` is negative exactly when the ranges
first differ at a position where the left byte is the smaller one. -/
theorem traits_compare_neg_iff (n : Nat) (p q : CharPtr) :
    traits_compare p q n < 0 ↔
      ∃ k, k < n ∧ (∀ i, i < k → (p.add i).deref = (q.add i).deref) ∧
        (p.add k).deref < (q.add k).deref := by
  induction n generalizing p q with
  | zero => simp [traits_compare]
  | succ n ih =>
    unfold traits_compare
    by_cases h1 : p.deref < q.deref
    · simp only [h1, if_true]
      constructor
      · intro _
        exact ⟨0, Nat.succ_pos n, fun i hi => absurd hi (Nat.not_lt_zero i), by simpa using h1⟩
      · intro _; decide
    · by_cases h2 : q.deref < p.deref
      · simp only [h1, h2, if_true, if_false]
        constructor
        · intro h; exact absurd h (by decide)
        · rintro ⟨k, hk, hpre, hlt⟩
          cases k with
          | zero => exact absurd (by simpa using hlt) h1
          | succ k =>
            have := hpre 0 (Nat.succ_pos k)
            simp at this
            exact absurd h2 (by rw [this]; exact lt_irrefl _)
      · simp only [h1, h2, if_false]
        rw [ih]
        have h0 : p.deref = q.deref := le_antisymm (not_lt.mp h2) (not_lt.mp h1)
        constructor
        · rintro ⟨k, hk, hpre, hlt⟩
          refine ⟨k + 1, by omega, ?_, by simpa [Nat.add_comm] using hlt⟩
          intro i hi
          cases i with
          | zero => simpa using h0
          | succ i =>
            have := hpre i (by omega)
            simpa [Nat.add_comm] using this
        · rintro ⟨k, hk, hpre, hlt⟩
          cases k with
          | zero => exact absurd (by simpa using hlt) h1
          | succ k =>
            refine ⟨k, by omega, ?_, by simpa [Nat.add_comm] using hlt⟩
            intro i hi
            have := hpre (i + 1) (by omega)
            simpa [Nat.add_comm] using this

/-- Swapping the arguments of `char_traits::compare` negates the result. -/
theorem traits_compare_swap (n : Nat) (p q : CharPtr) :
    traits_compare q p n = - traits_compare p q n := by
  induction n generalizing p q with
  | zero => simp [traits_compare]
  | succ n ih =>
    unfold traits_compare
    by_cases h1 : p.deref < q.deref
    · have h2 : ¬ q.deref < p.deref := not_lt.mpr (le_of_lt h1)
      rw [if_neg h2, if_pos h1, if_pos h1]
      decide
    · by_cases h2 : q.deref < p.deref
      · rw [if_pos h2, if_neg h1, if_pos h2]
      · rw [if_neg h2, if_neg h1, if_neg h1, if_neg h2]
        exact ih _ _

/-! ## `find` -/

theorem traits_compare_hit_iff (V v : simple_string_view) (i : Nat) :
    0 = traits_compare v.data_ (V.data_.add i) v.size_ ↔
      ∀ j, j < v.size_ → V.index (i + j) = v.index j := by
  rw [eq_comm, traits_compare_eq_zero_iff]
  simp only [CharPtr.add_add, simple_string_view.index]
  constructor
  · intro h j hj; exact (h j hj).symm
  · intro h j hj; exact (h j hj).symm

/-- The loop of `find` stops within its fuel, at the first hit or past
`max_pos`. -/
theorem find_loop_cases (V v : simple_string_view) (max_pos : Nat)
    (hmax : max_pos < npos ∨ v.size_ = 0) :
    ∀ fuel pos, 0 < fuel → max_pos + 2 ≤ fuel + pos →
      (∃ p, find_loop V v max_pos fuel pos = some p ∧ pos ≤ p ∧ p ≤ max_pos ∧
        (∀ j, j < v.size_ → V.index (p + j) = v.index j) ∧
        ∀ k, pos ≤ k → k < p → ¬ ∀ j, j < v.size_ → V.index (k + j) = v.index j) ∨
      (find_loop V v max_pos fuel pos = some npos ∧
        ∀ k, pos ≤ k → k ≤ max_pos → ¬ ∀ j, j < v.size_ → V.index (k + j) = v.index j) := by
  intro fuel
  induction fuel with
  | zero => intro pos h; exact absurd h (Nat.lt_irrefl 0)
  | succ fuel ih =>
    intro pos _ hfuel
    unfold find_loop
    by_cases hle : pos ≤ max_pos
    · rw [if_pos hle]
      by_cases hit : 0 = traits_compare v.data_ (V.data_.add pos) v.size_
      · rw [if_pos hit]
        left
        refine ⟨pos, rfl, le_refl _, hle, (traits_compare_hit_iff V v pos).mp hit, ?_⟩
        intro k hk1 hk2
        omega
      · rw [if_neg hit]
        have hmiss := fun h => hit ((traits_compare_hit_iff V v pos).mpr h)
        have hv : v.size_ ≠ 0 := by
          intro h0
          apply hmiss
          intro j hj
          omega
        have hlt : max_pos < npos := by
          rcases hmax with h | h
          · exact h
          · exact absurd h hv
        have hadd : size_add pos 1 = pos + 1 := size_add_of_lt (by omega)
        rw [hadd]
        rcases ih (pos + 1) (by omega) (by omega) with ⟨p, hp, h1, h2, h3, h4⟩ | ⟨hn, h5⟩
        · left
          refine ⟨p, hp, by omega, h2, h3, ?_⟩
          intro k hk1 hk2
          by_cases hk : k = pos
          · subst hk; exact hmiss
          · exact h4 k (by omega) hk2
        · right
          refine ⟨hn, ?_⟩
          intro k hk1 hk2
          by_cases hk : k = pos
          · subst hk; exact hmiss
          · exact h5 k (by omega) hk2
    · rw [if_neg hle]
      right
      refine ⟨rfl, ?_⟩
      intro k hk1 hk2
      omega

/-- The method `find` returns: either the first occurrence of the needle at or
after `pos`, or `npos` when there is none. -/
theorem find_cases (V v : simple_string_view) (pos : Nat) (hV : V.size_ ≤ npos) :
    (∃ p, V.find v pos = some p ∧ pos ≤ p ∧ occurs_at V v p ∧
      ∀ k, pos ≤ k → k < p → ¬ occurs_at V v k) ∨
    (V.find v pos = some npos ∧ ∀ k, pos ≤ k → ¬ occurs_at V v k) := by
  unfold simple_string_view.find
  by_cases hearly : pos > V.size_ ∨ v.size_ > V.size_
  · rw [if_pos hearly]
    right
    refine ⟨rfl, ?_⟩
    rintro k hk ⟨hocc, _⟩
    omega
  · rw [if_neg hearly]
    have hsub : size_sub V.size_ v.size_ = V.size_ - v.size_ :=
      size_sub_of_le hV (by omega)
    rw [hsub]
    have hmax : V.size_ - v.size_ < npos ∨ v.size_ = 0 := by omega
    rcases find_loop_cases V v (V.size_ - v.size_) hmax (V.size_ + 2) pos
        (by omega) (by omega) with ⟨p, hp, h1, h2, h3, h4⟩ | ⟨hn, h5⟩
    · left
      refine ⟨p, hp, h1, ⟨by omega, h3⟩, ?_⟩
      rintro k hk1 hk2 ⟨_, hocc⟩
      exact h4 k hk1 hk2 hocc
    · right
      refine ⟨hn, ?_⟩
      rintro k hk ⟨hocc1, hocc2⟩
      exact h5 k hk (by omega) hocc2

/-- Claim C1.  For every view `V`, needle `v` and start `pos`: if the needle
occurs at or after `pos`, `find` returns the smallest index `i` with `pos <= i`
and `i + v.size() <= V.size()` at which the bytes of `V` equal `v`; `find`
returns `npos` exactly when there is no such index; and an empty needle is
found at `pos` for every `pos <= V.size()`.  A view references `V.size()`
characters of an array, and no array has as many bytes as the maximum `size_t`
value, so `V.size()` is below `npos`. -/
theorem find_first_occurrence (V v : simple_string_view) (pos : Nat)
    (hV : V.size_ < npos) :
    ((∃ i, pos ≤ i ∧ occurs_at V v i) →
      ∃ p, V.find v pos = some p ∧ pos ≤ p ∧ occurs_at V v p ∧
        ∀ k, pos ≤ k → occurs_at V v k → p ≤ k) ∧
    (V.find v pos = some npos ↔ ¬ ∃ i, pos ≤ i ∧ occurs_at V v i) ∧
    (v.size_ = 0 → pos ≤ V.size_ → V.find v pos = some pos) := by
  have hcases := find_cases V v pos (Nat.le_of_lt hV)
  refine ⟨?_, ?_, ?_⟩
  · rintro ⟨i, hi, hocc⟩
    rcases hcases with ⟨p, hp, h1, h2, h3⟩ | ⟨_, hnone⟩
    · refine ⟨p, hp, h1, h2, ?_⟩
      intro k hk hkocc
      by_contra hlt
      exact h3 k hk (by omega) hkocc
    · exact absurd hocc (hnone i hi)
  · constructor
    · intro hfind
      rcases hcases with ⟨p, hp, _, h2, _⟩ | ⟨_, hnone⟩
      · rw [hp] at hfind
        have hpn : p = npos := Option.some.inj hfind
        have hin := h2.1
        omega
      · rintro ⟨i, hi, hocc⟩
        exact hnone i hi hocc
    · intro hno
      rcases hcases with ⟨p, _, h1, h2, _⟩ | ⟨hn, _⟩
      · exact absurd ⟨p, h1, h2⟩ hno
      · exact hn
  · intro hv hpos
    have hocc : occurs_at V v pos := by
      refine ⟨by omega, ?_⟩
      intro j hj
      omega
    rcases hcases with ⟨p, hp, h1, _, h3⟩ | ⟨_, hnone⟩
    · rw [hp]
      by_cases hpp : p = pos
      · rw [hpp]
      · exact absurd hocc (h3 pos (le_refl _) (by omega))
    · exact absurd hocc (hnone pos (le_refl _))

/-- The statement of `find_first_occurrence` on the view over `"hello world"`:
`find("world")` is 6, `find("xyz")` is `npos`, and `"xyz"` occurs nowhere. -/
theorem find_first_occurrence_witness :
    hello_world.size_ < npos ∧
    hello_world.find (of_string (bytes "world")) 0 = some 6 ∧
    hello_world.find (of_string (bytes "xyz")) 0 = some npos ∧
    (¬ ∃ i, 0 ≤ i ∧ occurs_at hello_world (of_string (bytes "xyz")) i) :=
  ⟨by decide, by decide, by decide,
    (find_first_occurrence hello_world (of_string (bytes "xyz")) 0 (by decide)).2.1.mp
      (by decide)⟩

/-- Claim C6.  If `find(v, pos)` returns a position `p` other than `npos`, then
`p >= pos`, the caller's `p + 1` does not wrap, and `find(v, p + 1)` returns a
value that is not `p`: it is `npos` or a position greater than `p`. -/
theorem find_progress (V v : simple_string_view) (pos p : Nat)
    (hV : V.size_ ≤ npos) (hfind : V.find v pos = some p) (hp : p ≠ npos) :
    pos ≤ p ∧ size_add p 1 = p + 1 ∧
      ∃ q, V.find v (p + 1) = some q ∧ q ≠ p ∧ (q = npos ∨ p < q) := by
  have hfirst : pos ≤ p ∧ p < npos := by
    rcases find_cases V v pos hV with ⟨p', hp', h1, h2, _⟩ | ⟨hn, _⟩
    · rw [hp'] at hfind
      have hpp : p' = p := Option.some.inj hfind
      subst hpp
      have := h2.1
      omega
    · rw [hn] at hfind
      exact absurd (Option.some.inj hfind).symm hp
  refine ⟨hfirst.1, size_add_of_lt (by omega), ?_⟩
  rcases find_cases V v (p + 1) hV with ⟨q, hq, h1, _, _⟩ | ⟨hn, _⟩
  · exact ⟨q, hq, by omega, Or.inr (by omega)⟩
  · exact ⟨npos, hn, by omega, Or.inl rfl⟩

/-- The statement of `find_progress` on `"hello world"` and the needle `"o"`:
the first match is at 4 and the search from 5 finds 7. -/
theorem find_progress_witness :
    hello_world.size_ ≤ npos ∧
    hello_world.find (of_string (bytes "o")) 0 = some 4 ∧ 4 ≠ npos ∧
    hello_world.find (of_string (bytes "o")) 5 = some 7 ∧
    (0 ≤ 4 ∧ size_add 4 1 = 4 + 1 ∧
      ∃ q, hello_world.find (of_string (bytes "o")) (4 + 1) = some q ∧ q ≠ 4 ∧
        (q = npos ∨ 4 < q)) :=
  ⟨by decide, by decide, by decide, by decide,
    find_progress hello_world (of_string (bytes "o")) 0 4 (by decide) (by decide) (by decide)⟩

/-! ## `substr`, `at` and the conversion to and from `std::string` -/

/-- The view that `substr` builds when the start position is in range. -/
theorem substr_ok (V : simple_string_view) (pos count : Nat)
    (hV : V.size_ ≤ npos) (hpos : pos ≤ V.size_) :
    V.substr pos count = Except.ok ⟨V.data_.add pos, min count (V.size_ - pos)⟩ := by
  unfold simple_string_view.substr
  have hnot : ¬ pos > V.size := by
    unfold simple_string_view.size
    omega
  rw [if_neg hnot]
  have hpre : (if pos > 0 then V.remove_prefix pos else V) = ⟨V.data_.add pos, V.size_ - pos⟩ := by
    by_cases h0 : pos > 0
    · rw [if_pos h0]
      unfold simple_string_view.remove_prefix
      rw [size_sub_of_le hV hpos]
    · rw [if_neg h0]
      have hz : pos = 0 := by omega
      subst hz
      rfl
  simp only [hpre]
  by_cases hc : count < V.size_ - pos
  · have hc2 : count < simple_string_view.size ⟨V.data_.add pos, V.size_ - pos⟩ := hc
    rw [if_pos hc2]
    unfold simple_string_view.remove_suffix simple_string_view.size
    simp only
    have hin : size_sub (V.size_ - pos) count = V.size_ - pos - count :=
      size_sub_of_le (by omega) (by omega)
    rw [hin, size_sub_of_le (by omega) (by omega)]
    congr 2
    omega
  · have hc2 : ¬ count < simple_string_view.size ⟨V.data_.add pos, V.size_ - pos⟩ := hc
    rw [if_neg hc2]
    congr 2
    omega

/-- Claim C2.  For every view `V` (its size a `size_t`), every `p <= V.size()`
and every `count`: `substr(p)` is a view of length `V.size() - p` and
`substr(p, count)` one of length `min(count, V.size() - p)`, and the byte `i`
of either is `V[p + i]`; `substr(p, 0)` and `substr(V.size())` are empty. -/
theorem substr_tail (V : simple_string_view) (p count : Nat)
    (hV : V.size_ ≤ npos) (hp : p ≤ V.size_) :
    (∃ r, V.substr p npos = Except.ok r ∧ r.size = V.size_ - p ∧
      ∀ i, i < r.size → r.index i = V.index (p + i)) ∧
    (∃ r, V.substr p count = Except.ok r ∧ r.size = min count (V.size_ - p) ∧
      ∀ i, i < r.size → r.index i = V.index (p + i)) ∧
    (∃ r, V.substr p 0 = Except.ok r ∧ r.size = 0 ∧ r.empty = true) ∧
    (∃ r, V.substr V.size_ npos = Except.ok r ∧ r.size = 0 ∧ r.empty = true) := by
  refine ⟨⟨_, substr_ok V p npos hV hp, ?_, ?_⟩, ⟨_, substr_ok V p count hV hp, rfl, ?_⟩,
    ⟨_, substr_ok V p 0 hV hp, ?_, ?_⟩, ⟨_, substr_ok V V.size_ npos hV (le_refl _), ?_, ?_⟩⟩
  · simp only [simple_string_view.size]
    omega
  · intro i _
    simp [simple_string_view.index]
  · intro i _
    simp [simple_string_view.index]
  · simp [simple_string_view.size]
  · simp [simple_string_view.empty]
  · simp [simple_string_view.size]
  · simp [simple_string_view.empty]

/-- The statement of `substr_tail` on `"hello world"`: `substr(6)` is `"world"`
and `substr(6, 0)` is empty. -/
theorem substr_tail_witness :
    hello_world.size_ ≤ npos ∧ 6 ≤ hello_world.size_ ∧
    (∃ r, hello_world.substr 6 npos = Except.ok r ∧ r.to_string = bytes "world") ∧
    (∃ r, hello_world.substr 6 0 = Except.ok r ∧ r.to_string = []) ∧
    (∃ r, hello_world.substr 6 0 = Except.ok r ∧ r.size = 0 ∧ r.empty = true) :=
  ⟨by decide, by decide, ⟨_, rfl, by decide⟩, ⟨_, rfl, by decide⟩,
    (substr_tail hello_world 6 0 (by decide) (by decide)).2.2.1⟩

/-- Claim C5.  For every view `V`, start `pos` and `count`: `substr(pos, count)`
throws `std::out_of_range` if and only if `pos > V.size()`, whatever `count`
is, `npos` included; for `pos = V.size()` it returns a view. -/
theorem substr_throws_iff (V : simple_string_view) (pos count : Nat) :
    ((∃ e, V.substr pos count = Except.error e) ↔ pos > V.size) ∧
    ((∃ e, V.substr pos npos = Except.error e) ↔ pos > V.size) ∧
    (∃ r, V.substr V.size count = Except.ok r) := by
  have key : ∀ c q, (∃ e, V.substr q c = Except.error e) ↔ q > V.size := by
    intro c q
    unfold simple_string_view.substr
    by_cases h : q > V.size
    · rw [if_pos h]
      exact ⟨fun _ => h, fun _ => ⟨_, rfl⟩⟩
    · rw [if_neg h]
      constructor
      · rintro ⟨e, he⟩
        cases he
      · intro h'
        exact absurd h' h
  refine ⟨key count pos, key npos pos, ?_⟩
  unfold simple_string_view.substr
  rw [if_neg (Nat.lt_irrefl _)]
  exact ⟨_, rfl⟩

/-- Claim C4.  For every view `V` and index `pos`: `at(pos)` throws
`std::out_of_range` if and only if `pos >= V.size()`, and for `pos < V.size()`
it returns the byte that `operator[]` returns. -/
theorem at_throws_iff (V : simple_string_view) (pos : Nat) :
    ((∃ e, V.at_ pos = Except.error e) ↔ pos ≥ V.size) ∧
    (pos < V.size → V.at_ pos = Except.ok (V.index pos)) := by
  unfold simple_string_view.at_
  by_cases h : pos ≥ V.size
  · rw [if_pos h]
    refine ⟨⟨fun _ => h, fun _ => ⟨_, rfl⟩⟩, ?_⟩
    intro hlt
    omega
  · rw [if_neg h]
    refine ⟨⟨?_, fun h' => absurd h' h⟩, fun _ => rfl⟩
    rintro ⟨e, he⟩
    cases he

/-- The statement of `at_throws_iff` on the 11-byte view over `"hello world"`:
`at(11)` throws, `at(10)` is the byte `'d'`. -/
theorem at_throws_iff_witness :
    (∃ e, hello_world.at_ 11 = Except.error e) ∧
    hello_world.at_ 10 = Except.ok 100 :=
  ⟨(at_throws_iff hello_world 11).1.mpr (by decide),
    (at_throws_iff hello_world 10).2 (by decide)⟩

/-- The characters read from the start of a string's buffer are the string. -/
theorem string_of_ptr_drop (S : List Byte) :
    ∀ n k, k + n = S.length → string_of_ptr ⟨S, k⟩ n = S.drop k := by
  intro n
  induction n with
  | zero =>
    intro k hk
    have : S.length ≤ k := by omega
    simp [string_of_ptr, List.drop_eq_nil_of_le this]
  | succ n ih =>
    intro k hk
    have hlt : k < S.length := by omega
    unfold string_of_ptr
    have hrest := ih (k + 1) (by omega)
    have hadd : CharPtr.add ⟨S, k⟩ 1 = ⟨S, k + 1⟩ := rfl
    rw [hadd, hrest]
    have hd : CharPtr.deref ⟨S, k⟩ = S[k] := by
      simp [CharPtr.deref, List.getElem?_eq_getElem hlt]
    rw [hd]
    exact (List.drop_eq_getElem_cons hlt).symm

/-- Claim C3.  For every owned string `S`, zero bytes or not: the view built
from `S` has size `S.size()` and the byte of `S` at every index, and its
conversion to an owned string is `S`. -/
theorem string_round_trip (S : List Byte) :
    (of_string S).size = S.length ∧
    (∀ i (h : i < S.length), (of_string S).index i = S.get ⟨i, h⟩) ∧
    (of_string S).to_string = S := by
  refine ⟨rfl, ?_, ?_⟩
  · intro i h
    simp [of_string, simple_string_view.index, CharPtr.add, CharPtr.deref,
      List.getElem?_eq_getElem h]
  · have := string_of_ptr_drop S S.length 0 (by omega)
    simpa [of_string, simple_string_view.to_string] using this

/-! ## Comparison -/

/-- Claim C7.  For all views `a`, `b`, `c`: `a == b` holds if and only if the
sizes agree and `a[i] = b[i]` for every `i < a.size()`, whatever buffers the
views point into; `==` is reflexive, symmetric and transitive; and `a != b` is
the negation of `a == b`. -/
theorem op_eq_bytewise (a b c : simple_string_view) :
    (op_eq a b = true ↔ a.size = b.size ∧ ∀ i, i < a.size → a.index i = b.index i) ∧
    op_eq a a = true ∧
    op_eq a b = op_eq b a ∧
    (op_eq a b = true → op_eq b c = true → op_eq a c = true) ∧
    op_ne a b = !(op_eq a b) := by
  have key : ∀ x y : simple_string_view, op_eq x y = true ↔ same_bytes x y := by
    intro x y
    unfold op_eq same_bytes simple_string_view.size simple_string_view.data
    rw [Bool.and_eq_true, beq_iff_eq, beq_iff_eq, eq_comm (a := (0 : Int)),
      traits_compare_eq_zero_iff]
    rfl
  have hsymm : ∀ x y : simple_string_view, same_bytes x y → same_bytes y x := by
    rintro x y ⟨hs, hb⟩
    exact ⟨hs.symm, fun i hi => (hb i (by omega)).symm⟩
  refine ⟨key a b, (key a a).mpr ⟨rfl, fun _ _ => rfl⟩, ?_, ?_, rfl⟩
  · rw [Bool.eq_iff_iff, key, key]
    exact ⟨hsymm a b, hsymm b a⟩
  · intro hab hbc
    obtain ⟨hs1, hb1⟩ := (key a b).mp hab
    obtain ⟨hs2, hb2⟩ := (key b c).mp hbc
    exact (key a c).mpr ⟨hs1.trans hs2, fun i hi => (hb1 i hi).trans (hb2 i (by omega))⟩

/-- The result of `compare` is zero exactly on equal byte sequences. -/
theorem compare_eq_zero_iff (a b : simple_string_view) :
    a.compare b = 0 ↔ same_bytes a b := by
  unfold simple_string_view.compare same_bytes simple_string_view.size simple_string_view.data
  simp only
  have h0 := traits_compare_eq_zero_iff (min a.size_ b.size_) a.data_ b.data_
  by_cases hc : traits_compare a.data_ b.data_ (min a.size_ b.size_) ≠ 0
  · rw [if_pos hc]
    constructor
    · intro h; exact absurd h hc
    · rintro ⟨hs, hb⟩
      exact absurd (h0.mpr (fun j hj => hb j (by omega))) hc
  · rw [if_neg hc]
    have hz := h0.mp (not_not.mp hc)
    by_cases h1 : a.size_ < b.size_
    · rw [if_pos h1]
      constructor
      · intro h; exact absurd h (by decide)
      · rintro ⟨hs, _⟩; omega
    · rw [if_neg h1]
      by_cases h2 : a.size_ > b.size_
      · rw [if_pos h2]
        constructor
        · intro h; exact absurd h (by decide)
        · rintro ⟨hs, _⟩; omega
      · rw [if_neg h2]
        refine ⟨fun _ => ⟨by omega, fun i hi => hz i (by omega)⟩, fun _ => rfl⟩

/-- The result of `compare` is negative exactly when the left byte sequence is
the lexicographically smaller one. -/
theorem compare_neg_iff (a b : simple_string_view) :
    a.compare b < 0 ↔ lex_less a b := by
  unfold simple_string_view.compare lex_less simple_string_view.size simple_string_view.data
  simp only
  have h0 := traits_compare_eq_zero_iff (min a.size_ b.size_) a.data_ b.data_
  have hn := traits_compare_neg_iff (min a.size_ b.size_) a.data_ b.data_
  by_cases hc : traits_compare a.data_ b.data_ (min a.size_ b.size_) ≠ 0
  · rw [if_pos hc]
    constructor
    · intro h
      obtain ⟨k, hk, hpre, hlt⟩ := hn.mp h
      exact ⟨k, by omega, by omega, hpre, Or.inr ⟨by omega, by omega, hlt⟩⟩
    · rintro ⟨k, hka, hkb, hpre, ⟨hk1, hk2⟩ | ⟨hk1, hk2, hlt⟩⟩
      · exact absurd (h0.mpr (fun j hj => hpre j (by omega))) hc
      · exact hn.mpr ⟨k, by omega, hpre, hlt⟩
  · rw [if_neg hc]
    have hz := h0.mp (not_not.mp hc)
    have hcontra : ∀ k, k < a.size_ → k < b.size_ →
        ¬ (a.index k).val < (b.index k).val := by
      intro k hk1 hk2 hlt
      have := hz k (by omega)
      unfold simple_string_view.index at hlt
      rw [this] at hlt
      exact absurd hlt (Nat.lt_irrefl _)
    by_cases h1 : a.size_ < b.size_
    · rw [if_pos h1]
      refine ⟨fun _ => ⟨a.size_, le_refl _, by omega, fun i hi => hz i (by omega),
        Or.inl ⟨rfl, h1⟩⟩, fun _ => by decide⟩
    · rw [if_neg h1]
      have hno : ¬ ∃ k, k ≤ a.size_ ∧ k ≤ b.size_ ∧ (∀ i, i < k → a.index i = b.index i) ∧
          ((k = a.size_ ∧ k < b.size_) ∨
            (k < a.size_ ∧ k < b.size_ ∧ (a.index k).val < (b.index k).val)) := by
        rintro ⟨k, _, _, _, ⟨hk1, hk2⟩ | ⟨hk1, hk2, hlt⟩⟩
        · omega
        · exact hcontra k hk1 hk2 hlt
      by_cases h2 : a.size_ > b.size_
      · rw [if_pos h2]
        exact ⟨fun h => absurd h (by decide), fun h => absurd h hno⟩
      · rw [if_neg h2]
        exact ⟨fun h => absurd h (by decide), fun h => absurd h hno⟩

/-- Swapping the operands of `compare` negates the result. -/
theorem compare_swap (a b : simple_string_view) : b.compare a = - a.compare b := by
  unfold simple_string_view.compare simple_string_view.size simple_string_view.data
  simp only
  rw [Nat.min_comm b.size_ a.size_, traits_compare_swap (min a.size_ b.size_) a.data_ b.data_]
  by_cases hc : traits_compare a.data_ b.data_ (min a.size_ b.size_) ≠ 0
  · have hc2 : - traits_compare a.data_ b.data_ (min a.size_ b.size_) ≠ 0 := by omega
    rw [if_pos hc, if_pos hc2]
  · have hc2 : ¬ - traits_compare a.data_ b.data_ (min a.size_ b.size_) ≠ 0 := by omega
    rw [if_neg hc, if_neg hc2]
    split_ifs <;> omega

/-- The result of `compare` is positive exactly when the right byte sequence
is the lexicographically smaller one. -/
theorem compare_pos_iff (a b : simple_string_view) :
    a.compare b > 0 ↔ lex_less b a := by
  rw [← compare_neg_iff b a, compare_swap a b]
  omega

/-- The two ways in which a non-empty list precedes another one. -/
theorem lex_cons_cons {x y : Byte} {l₁ l₂ : List Byte}
    (h : List.Lex (fun x y : Byte => x < y) (x :: l₁) (y :: l₂)) :
    x < y ∨ (x = y ∧ List.Lex (fun x y : Byte => x < y) l₁ l₂) := by
  cases h with
  | cons h => exact Or.inr ⟨rfl, h⟩
  | rel h => exact Or.inl h

/-- The characters read from two pointers form lexicographically ordered
lists exactly when the first-difference description of the order holds. -/
theorem string_of_ptr_lex (n : Nat) :
    ∀ (m : Nat) (p q : CharPtr),
      List.Lex (fun x y : Byte => x < y) (string_of_ptr p n) (string_of_ptr q m) ↔
        ∃ k, k ≤ n ∧ k ≤ m ∧ (∀ i, i < k → (p.add i).deref = (q.add i).deref) ∧
          ((k = n ∧ k < m) ∨
            (k < n ∧ k < m ∧ ((p.add k).deref).val < ((q.add k).deref).val)) := by
  induction n with
  | zero =>
    intro m p q
    cases m with
    | zero =>
      simp only [string_of_ptr]
      constructor
      · intro h; exact absurd h (List.Lex.not_nil_right _ _)
      · rintro ⟨k, _, _, _, h | h⟩ <;> omega
    | succ m =>
      simp only [string_of_ptr]
      constructor
      · intro _
        exact ⟨0, le_refl _, Nat.zero_le _, fun i hi => absurd hi (Nat.not_lt_zero i),
          Or.inl ⟨rfl, Nat.succ_pos m⟩⟩
      · intro _; exact List.Lex.nil
  | succ n ih =>
    intro m p q
    cases m with
    | zero =>
      simp only [string_of_ptr]
      constructor
      · intro h; exact absurd h (List.Lex.not_nil_right _ _)
      · rintro ⟨k, _, _, _, h | h⟩ <;> omega
    | succ m =>
      simp only [string_of_ptr]
      by_cases h1 : p.deref < q.deref
      · constructor
        · intro _
          exact ⟨0, Nat.zero_le _, Nat.zero_le _, fun i hi => absurd hi (Nat.not_lt_zero i),
            Or.inr ⟨Nat.succ_pos n, Nat.succ_pos m, h1⟩⟩
        · intro _; exact List.Lex.rel h1
      · by_cases h0 : p.deref = q.deref
        · rw [h0, List.Lex.cons_iff, ih m (p.add 1) (q.add 1)]
          simp only [CharPtr.add_add]
          constructor
          · rintro ⟨k, hk1, hk2, hpre, hor⟩
            refine ⟨k + 1, by omega, by omega, ?_, ?_⟩
            · intro i hi
              cases i with
              | zero => exact h0
              | succ i =>
                have := hpre i (by omega)
                rwa [Nat.add_comm 1 i] at this
            · rw [Nat.add_comm 1 k] at hor
              rcases hor with ⟨ha, hb⟩ | ⟨ha, hb, hc⟩
              · exact Or.inl ⟨by omega, by omega⟩
              · exact Or.inr ⟨by omega, by omega, hc⟩
          · rintro ⟨k, hk1, hk2, hpre, hor⟩
            cases k with
            | zero =>
              rcases hor with ⟨ha, _⟩ | ⟨_, _, hc⟩
              · omega
              · exact absurd hc h1
            | succ k =>
              refine ⟨k, by omega, by omega, ?_, ?_⟩
              · intro i hi
                have := hpre (i + 1) (by omega)
                rwa [Nat.add_comm i 1] at this
              · rw [Nat.add_comm 1 k]
                rcases hor with ⟨ha, hb⟩ | ⟨ha, hb, hc⟩
                · exact Or.inl ⟨by omega, by omega⟩
                · exact Or.inr ⟨by omega, by omega, hc⟩
        · constructor
          · intro h
            rcases lex_cons_cons h with h | ⟨h, _⟩
            · exact absurd h h1
            · exact absurd h h0
          · rintro ⟨k, hk1, hk2, hpre, hor⟩
            cases k with
            | zero =>
              rcases hor with ⟨ha, _⟩ | ⟨_, _, hc⟩
              · omega
              · exact absurd hc h1
            | succ k => exact absurd (hpre 0 (Nat.succ_pos k)) h0

/-- The characters read from two pointers form equal lists exactly when the
counts agree and the bytes agree position by position. -/
theorem string_of_ptr_eq_iff (n : Nat) :
    ∀ (m : Nat) (p q : CharPtr),
      string_of_ptr p n = string_of_ptr q m ↔
        n = m ∧ ∀ i, i < n → (p.add i).deref = (q.add i).deref := by
  induction n with
  | zero =>
    intro m p q
    cases m with
    | zero => simp [string_of_ptr]
    | succ m => simp [string_of_ptr]
  | succ n ih =>
    intro m p q
    cases m with
    | zero => simp [string_of_ptr]
    | succ m =>
      simp only [string_of_ptr, List.cons.injEq, ih m (p.add 1) (q.add 1), CharPtr.add_add]
      constructor
      · rintro ⟨h0, hn, hpre⟩
        refine ⟨by omega, ?_⟩
        intro i hi
        cases i with
        | zero => exact h0
        | succ i =>
          have := hpre i (by omega)
          rwa [Nat.add_comm 1 i] at this
      · rintro ⟨hn, hpre⟩
        refine ⟨hpre 0 (Nat.succ_pos n), by omega, ?_⟩
        intro i hi
        have := hpre (i + 1) (by omega)
        rwa [Nat.add_comm i 1] at this

/-- Claim C8.  For all views `a` and `b`: `a.compare(b)` is negative, zero or
positive exactly when the byte sequence of `a` is lexicographically less than,
equal to or greater than that of `b`, bytes compared by unsigned value and a
proper prefix ordered first; and `a < b` holds exactly when the bytes of `a`
are lexicographically less than those of `b`.  The order is given twice: by the
position of the first difference (`lex_less`, `same_bytes`) and as the
lexicographic order `List.Lex` on the lists of bytes of the two views. -/
theorem compare_lexicographic (a b : simple_string_view) :
    (a.compare b < 0 ↔ lex_less a b) ∧
    (a.compare b = 0 ↔ same_bytes a b) ∧
    (a.compare b > 0 ↔ lex_less b a) ∧
    (op_lt a b = true ↔ lex_less a b) ∧
    (a.compare b < 0 ↔ List.Lex (fun x y : Byte => x < y) a.to_string b.to_string) ∧
    (a.compare b = 0 ↔ a.to_string = b.to_string) ∧
    (a.compare b > 0 ↔ List.Lex (fun x y : Byte => x < y) b.to_string a.to_string) ∧
    (op_lt a b = true ↔ List.Lex (fun x y : Byte => x < y) a.to_string b.to_string) := by
  have hlex : ∀ x y : simple_string_view,
      lex_less x y ↔ List.Lex (fun x y : Byte => x < y) x.to_string y.to_string := by
    intro x y
    unfold simple_string_view.to_string
    rw [string_of_ptr_lex]
    rfl
  have hsame : same_bytes a b ↔ a.to_string = b.to_string := by
    unfold simple_string_view.to_string
    rw [string_of_ptr_eq_iff]
    rfl
  have hlt : op_lt a b = true ↔ lex_less a b := by
    unfold op_lt
    rw [decide_eq_true_iff]
    exact compare_neg_iff a b
  refine ⟨compare_neg_iff a b, compare_eq_zero_iff a b, compare_pos_iff a b, hlt, ?_, ?_, ?_, ?_⟩
  · rw [← hlex]; exact compare_neg_iff a b
  · rw [← hsame]; exact compare_eq_zero_iff a b
  · rw [← hlex]; exact compare_pos_iff a b
  · rw [← hlex]; exact hlt

/-- The lexicographic order on byte sequences is transitive. -/
theorem lex_less_trans (a b c : simple_string_view)
    (hab : lex_less a b) (hbc : lex_less b c) : lex_less a c := by
  obtain ⟨k1, hka, hkb, hpre1, h1⟩ := hab
  obtain ⟨k2, hkb2, hkc, hpre2, h2⟩ := hbc
  rcases h1 with ⟨h1a, h1b⟩ | ⟨h1a, h1b, hlt1⟩
  · rcases h2 with ⟨h2a, h2b⟩ | ⟨h2a, h2b, hlt2⟩
    · exact ⟨k1, hka, by omega,
        fun i hi => (hpre1 i hi).trans (hpre2 i (by omega)), Or.inl ⟨h1a, by omega⟩⟩
    · by_cases hk : k2 < k1
      · refine ⟨k2, by omega, hkc,
          fun i hi => (hpre1 i (by omega)).trans (hpre2 i hi), Or.inr ⟨by omega, h2b, ?_⟩⟩
        rw [hpre1 k2 hk]
        exact hlt2
      · exact ⟨k1, hka, by omega,
          fun i hi => (hpre1 i hi).trans (hpre2 i (by omega)), Or.inl ⟨h1a, by omega⟩⟩
  · rcases h2 with ⟨h2a, h2b⟩ | ⟨h2a, h2b, hlt2⟩
    · refine ⟨k1, hka, by omega,
        fun i hi => (hpre1 i hi).trans (hpre2 i (by omega)), Or.inr ⟨h1a, by omega, ?_⟩⟩
      rw [← hpre2 k1 (by omega)]
      exact hlt1
    · rcases Nat.lt_trichotomy k1 k2 with hk | hk | hk
      · refine ⟨k1, hka, by omega,
          fun i hi => (hpre1 i hi).trans (hpre2 i (by omega)), Or.inr ⟨h1a, by omega, ?_⟩⟩
        rw [← hpre2 k1 hk]
        exact hlt1
      · subst hk
        exact ⟨k1, hka, hkc,
          fun i hi => (hpre1 i hi).trans (hpre2 i hi), Or.inr ⟨h1a, h2b, by omega⟩⟩
      · refine ⟨k2, by omega, hkc,
          fun i hi => (hpre1 i (by omega)).trans (hpre2 i hi), Or.inr ⟨by omega, h2b, ?_⟩⟩
        rw [hpre1 k2 hk]
        exact hlt2

/-- Two views are incomparable under `<` exactly when `compare` is zero. -/
theorem incomparable_iff (a b : simple_string_view) :
    (op_lt a b = false ∧ op_lt b a = false) ↔ a.compare b = 0 := by
  unfold op_lt
  rw [decide_eq_false_iff_not, decide_eq_false_iff_not, compare_swap a b]
  omega

/-- Claim C9.  The relation `<` on views is a strict weak ordering: for all
views `a`, `b`, `c`, `a < a` is false; `a < b` and `b < c` imply `a < c`; and if
`a`, `b` are incomparable and `b`, `c` are incomparable, then so are `a`, `c`. -/
theorem op_lt_strict_weak_order (a b c : simple_string_view) :
    op_lt a a = false ∧
    (op_lt a b = true → op_lt b c = true → op_lt a c = true) ∧
    ((op_lt a b = false ∧ op_lt b a = false) → (op_lt b c = false ∧ op_lt c b = false) →
      (op_lt a c = false ∧ op_lt c a = false)) := by
  have hlt : ∀ x y : simple_string_view, op_lt x y = true ↔ lex_less x y := by
    intro x y
    unfold op_lt
    rw [decide_eq_true_iff]
    exact compare_neg_iff x y
  refine ⟨?_, ?_, ?_⟩
  · have hrefl : a.compare a = 0 := (compare_eq_zero_iff a a).mpr ⟨rfl, fun _ _ => rfl⟩
    unfold op_lt
    rw [hrefl]
    decide
  · intro hab hbc
    exact (hlt a c).mpr (lex_less_trans a b c ((hlt a b).mp hab) ((hlt b c).mp hbc))
  · intro hab hbc
    obtain ⟨hs1, hb1⟩ := (compare_eq_zero_iff a b).mp ((incomparable_iff a b).mp hab)
    obtain ⟨hs2, hb2⟩ := (compare_eq_zero_iff b c).mp ((incomparable_iff b c).mp hbc)
    exact (incomparable_iff a c).mpr ((compare_eq_zero_iff a c).mpr
      ⟨hs1.trans hs2, fun i hi => (hb1 i hi).trans (hb2 i (by omega))⟩)

/-- Claim C10.  For all views `a` and `b`: `a == b` iff `a.compare(b) == 0`;
`a > b` iff `b < a`; `a <= b` iff not `b < a`; `a >= b` iff not `a < b`; and
exactly one of `a < b`, `a == b`, `b < a` holds. -/
theorem operators_consistent (a b : simple_string_view) :
    (op_eq a b = true ↔ a.compare b = 0) ∧
    op_gt a b = op_lt b a ∧
    op_le a b = !(op_lt b a) ∧
    op_ge a b = !(op_lt a b) ∧
    (op_lt a b = true ∨ op_eq a b = true ∨ op_lt b a = true) ∧
    ¬ (op_lt a b = true ∧ op_eq a b = true) ∧
    ¬ (op_lt a b = true ∧ op_lt b a = true) ∧
    ¬ (op_eq a b = true ∧ op_lt b a = true) := by
  have heq : op_eq a b = true ↔ a.compare b = 0 := by
    rw [compare_eq_zero_iff]
    unfold op_eq same_bytes simple_string_view.size simple_string_view.data
    rw [Bool.and_eq_true, beq_iff_eq, beq_iff_eq, eq_comm (a := (0 : Int)),
      traits_compare_eq_zero_iff]
    rfl
  have hsw := compare_swap a b
  have hlt : op_lt a b = true ↔ a.compare b < 0 := by
    unfold op_lt
    exact decide_eq_true_iff
  have hgt : op_lt b a = true ↔ a.compare b > 0 := by
    unfold op_lt
    rw [decide_eq_true_iff, hsw]
    omega
  refine ⟨heq, ?_, ?_, ?_, ?_, ?_, ?_, ?_⟩
  · rw [Bool.eq_iff_iff, hgt]
    unfold op_gt
    exact decide_eq_true_iff
  · rw [Bool.eq_iff_iff, Bool.not_eq_true', ← Bool.not_eq_true, hgt]
    unfold op_le
    rw [decide_eq_true_iff]
    omega
  · rw [Bool.eq_iff_iff, Bool.not_eq_true', ← Bool.not_eq_true, hlt]
    unfold op_ge
    rw [decide_eq_true_iff]
    omega
  · rw [hlt, heq, hgt]
    omega
  · rw [hlt, heq]
    omega
  · rw [hlt, hgt]
    omega
  · rw [heq, hgt]
    omega

/-! ## Scans -/

theorem size_sub_zero_one : size_sub 0 1 = npos := by decide

/-- An upward scan stops within its fuel, at the first hit or at the limit. -/
theorem scan_up_cases (hit : Nat → Bool) (lim : Nat) (hlim : lim ≤ npos) :
    ∀ fuel pos, 0 < fuel → lim + 1 ≤ fuel + pos →
      (∃ p, scan_up hit lim fuel pos = some p ∧ pos ≤ p ∧ p < lim ∧ hit p = true ∧
        ∀ k, pos ≤ k → k < p → hit k = false) ∨
      (scan_up hit lim fuel pos = some npos ∧ ∀ k, pos ≤ k → k < lim → hit k = false) := by
  intro fuel
  induction fuel with
  | zero => intro pos h; exact absurd h (Nat.lt_irrefl 0)
  | succ fuel ih =>
    intro pos _ hfuel
    unfold scan_up
    by_cases hlt : pos < lim
    · rw [if_pos hlt]
      by_cases hh : hit pos = true
      · rw [if_pos hh]
        exact Or.inl ⟨pos, rfl, le_refl _, hlt, hh, fun k hk1 hk2 => by omega⟩
      · rw [if_neg hh, size_add_of_lt (by omega)]
        have hmiss : hit pos = false := Bool.eq_false_iff.mpr hh
        rcases ih (pos + 1) (by omega) (by omega) with ⟨p, hp, h1, h2, h3, h4⟩ | ⟨hn, h5⟩
        · left
          refine ⟨p, hp, by omega, h2, h3, ?_⟩
          intro k hk1 hk2
          by_cases hk : k = pos
          · subst hk; exact hmiss
          · exact h4 k (by omega) hk2
        · right
          refine ⟨hn, ?_⟩
          intro k hk1 hk2
          by_cases hk : k = pos
          · subst hk; exact hmiss
          · exact h5 k (by omega) hk2
    · rw [if_neg hlt]
      exact Or.inr ⟨rfl, fun k hk1 hk2 => by omega⟩

/-- A downward scan stops within its fuel: at the first hit, or after index 0,
where the decrement wraps to `npos`, which lies above the bound. -/
theorem scan_down_cases (hit : Nat → Bool) (bound : Nat)
    (hb : bound < npos ∨ ∀ k, hit k = true) :
    ∀ fuel i, i ≤ bound → i + 2 ≤ fuel →
      (∃ p, scan_down hit bound fuel i = some p ∧ p ≤ i ∧ hit p = true ∧
        ∀ k, p < k → k ≤ i → hit k = false) ∨
      (scan_down hit bound fuel i = some npos ∧ ∀ k, k ≤ i → hit k = false) := by
  intro fuel
  induction fuel with
  | zero => intro i _ h; omega
  | succ fuel ih =>
    intro i hi hfuel
    unfold scan_down
    rw [if_pos hi]
    by_cases hh : hit i = true
    · rw [if_pos hh]
      exact Or.inl ⟨i, rfl, le_refl _, hh, fun k hk1 hk2 => by omega⟩
    · rw [if_neg hh]
      have hmiss : hit i = false := Bool.eq_false_iff.mpr hh
      have hbound : bound < npos := by
        rcases hb with h | h
        · exact h
        · exact absurd (h i) hh
      cases i with
      | zero =>
        rw [size_sub_zero_one]
        cases fuel with
        | zero => omega
        | succ fuel =>
          unfold scan_down
          rw [if_neg (by omega)]
          right
          refine ⟨rfl, ?_⟩
          intro k hk
          have hk0 : k = 0 := by omega
          subst hk0
          exact hmiss
      | succ i =>
        have hsub : size_sub (i + 1) 1 = i := by
          rw [size_sub_of_le (by omega) (by omega)]
          rfl
        rw [hsub]
        rcases ih i (by omega) (by omega) with ⟨p, hp, h1, h2, h3⟩ | ⟨hn, h4⟩
        · left
          refine ⟨p, hp, by omega, h2, ?_⟩
          intro k hk1 hk2
          by_cases hk : k = i + 1
          · subst hk; exact hmiss
          · exact h3 k hk1 (by omega)
        · right
          refine ⟨hn, ?_⟩
          intro k hk
          by_cases hk' : k = i + 1
          · subst hk'; exact hmiss
          · exact h4 k (by omega)

/-- More fuel does not change the result of a downward scan that has one. -/
theorem scan_down_mono (hit : Nat → Bool) (bound : Nat) :
    ∀ fuel i r, scan_down hit bound fuel i = some r →
      ∀ fuel', fuel ≤ fuel' → scan_down hit bound fuel' i = some r := by
  intro fuel
  induction fuel with
  | zero =>
    intro i r h
    simp [scan_down] at h
  | succ fuel ih =>
    intro i r h fuel' hle
    cases fuel' with
    | zero => omega
    | succ fuel' =>
      unfold scan_down at h ⊢
      by_cases hi : i ≤ bound
      · rw [if_pos hi] at h ⊢
        by_cases hh : hit i = true
        · rw [if_pos hh] at h ⊢
          exact h
        · rw [if_neg hh] at h ⊢
          exact ih _ r h fuel' (by omega)
      · rw [if_neg hi] at h ⊢
        exact h

/-- The inner loop of the `of` searches finds a byte exactly when the byte is
in the character set. -/
theorem some_char_eq_iff (n : Nat) (p : CharPtr) (x : Byte) :
    some_char_eq p n x = true ↔ ∃ j, j < n ∧ (p.add j).deref = x := by
  induction n generalizing p with
  | zero => simp [some_char_eq]
  | succ n ih =>
    unfold some_char_eq
    by_cases h : x = p.deref
    · rw [if_pos h]
      exact ⟨fun _ => ⟨0, Nat.succ_pos n, h.symm⟩, fun _ => rfl⟩
    · rw [if_neg h, ih]
      simp only [CharPtr.add_add]
      constructor
      · rintro ⟨j, hj, hx⟩
        exact ⟨j + 1, by omega, by rwa [Nat.add_comm j 1]⟩
      · rintro ⟨j, hj, hx⟩
        cases j with
        | zero => exact absurd hx.symm h
        | succ j => exact ⟨j, by omega, by rwa [Nat.add_comm 1 j]⟩

/-- The flag `none` of the `not_of` searches is the negation of the test of the
`of` searches. -/
theorem no_char_eq_not (n : Nat) (p : CharPtr) (x : Byte) :
    no_char_eq p n x = !(some_char_eq p n x) := by
  induction n generalizing p with
  | zero => rfl
  | succ n ih =>
    unfold no_char_eq some_char_eq
    by_cases h : x = p.deref
    · rw [if_pos h, if_pos h]
      rfl
    · rw [if_neg h, if_neg h]
      exact ih _

theorem some_char_eq_in_set (v : simple_string_view) (x : Byte) :
    some_char_eq v.data_ v.size_ x = true ↔ in_set v x :=
  some_char_eq_iff v.size_ v.data_ x

theorem no_char_eq_in_set (v : simple_string_view) (x : Byte) :
    no_char_eq v.data_ v.size_ x = true ↔ ¬ in_set v x := by
  rw [no_char_eq_not, Bool.not_eq_true', ← Bool.not_eq_true, some_char_eq_in_set]

theorem rfind_loop_eq_scan (V v : simple_string_view) (max_pos : Nat) :
    ∀ fuel pos, rfind_loop V v max_pos fuel pos =
      scan_down (fun i => decide (0 = traits_compare v.data_ (V.data_.add i) v.size_))
        max_pos fuel pos := by
  intro fuel
  induction fuel with
  | zero => intro pos; rfl
  | succ fuel ih =>
    intro pos
    unfold rfind_loop scan_down
    simp only [decide_eq_true_eq, ih]

theorem find_first_of_loop_eq_scan (V v : simple_string_view) :
    ∀ fuel pos, find_first_of_loop V v fuel pos =
      scan_up (fun i => some_char_eq v.data_ v.size_ (V.index i)) V.size_ fuel pos := by
  intro fuel
  induction fuel with
  | zero => intro pos; rfl
  | succ fuel ih =>
    intro pos
    unfold find_first_of_loop scan_up
    simp only [ih, simple_string_view.index]

theorem find_first_not_of_loop_eq_scan (V v : simple_string_view) :
    ∀ fuel pos, find_first_not_of_loop V v fuel pos =
      scan_up (fun i => no_char_eq v.data_ v.size_ (V.index i)) V.size_ fuel pos := by
  intro fuel
  induction fuel with
  | zero => intro pos; rfl
  | succ fuel ih =>
    intro pos
    unfold find_first_not_of_loop scan_up
    simp only [ih, simple_string_view.index]

theorem find_last_of_loop_eq_scan (V v : simple_string_view) (last_pos : Nat) :
    ∀ fuel i, find_last_of_loop V v last_pos fuel i =
      scan_down (fun i => some_char_eq v.data_ v.size_ (V.index i)) last_pos fuel i := by
  intro fuel
  induction fuel with
  | zero => intro i; rfl
  | succ fuel ih =>
    intro i
    unfold find_last_of_loop scan_down
    simp only [ih, simple_string_view.index]

theorem find_last_not_of_loop_eq_scan (V v : simple_string_view) (last_pos : Nat) :
    ∀ fuel i, find_last_not_of_loop V v last_pos fuel i =
      scan_down (fun i => no_char_eq v.data_ v.size_ (V.index i)) last_pos fuel i := by
  intro fuel
  induction fuel with
  | zero => intro i; rfl
  | succ fuel ih =>
    intro i
    unfold find_last_not_of_loop scan_down
    simp only [ih, simple_string_view.index]

/-- The result of an upward scan with `lim + 2` units of fuel: the least
accepted index in `[pos, lim)`, and `npos` exactly when there is none. -/
theorem scan_up_result (hit : Nat → Bool) (P : Nat → Prop)
    (hP : ∀ k, hit k = true ↔ P k) (lim pos : Nat) (hlim : lim ≤ npos) :
    ((∃ i, pos ≤ i ∧ i < lim ∧ P i) →
      ∃ p, scan_up hit lim (lim + 2) pos = some p ∧ pos ≤ p ∧ p < lim ∧ P p ∧
        ∀ k, pos ≤ k → k < lim → P k → p ≤ k) ∧
    (scan_up hit lim (lim + 2) pos = some npos ↔ ¬ ∃ i, pos ≤ i ∧ i < lim ∧ P i) := by
  have hF : ∀ k, hit k = false → ¬ P k := by
    intro k hk hPk
    rw [(hP k).mpr hPk] at hk
    exact absurd hk (by decide)
  rcases scan_up_cases hit lim hlim (lim + 2) pos (by omega) (by omega) with
    ⟨p, hp, h1, h2, h3, h4⟩ | ⟨hn, h5⟩
  · refine ⟨fun _ => ⟨p, hp, h1, h2, (hP p).mp h3, ?_⟩, ?_⟩
    · intro k hk1 _ hPk
      by_contra hlt
      exact hF k (h4 k hk1 (by omega)) hPk
    · rw [hp]
      constructor
      · intro h
        have : p = npos := Option.some.inj h
        omega
      · intro h
        exact absurd ⟨p, h1, h2, (hP p).mp h3⟩ h
  · refine ⟨?_, ?_⟩
    · rintro ⟨i, hi1, hi2, hPi⟩
      exact absurd hPi (hF i (h5 i hi1 hi2))
    · refine ⟨fun _ => ?_, fun _ => hn⟩
      rintro ⟨i, hi1, hi2, hPi⟩
      exact hF i (h5 i hi1 hi2) hPi

/-- The result of a downward scan from its bound, the bound below `npos`: the
greatest accepted index up to the bound, and `npos` exactly when there is
none. -/
theorem scan_down_result (hit : Nat → Bool) (P : Nat → Prop)
    (hP : ∀ k, hit k = true ↔ P k) (bound fuel : Nat) (hb : bound < npos)
    (hfuel : bound + 2 ≤ fuel) :
    ((∃ i, i ≤ bound ∧ P i) →
      ∃ p, scan_down hit bound fuel bound = some p ∧ p ≤ bound ∧ P p ∧
        ∀ k, k ≤ bound → P k → k ≤ p) ∧
    (scan_down hit bound fuel bound = some npos ↔ ¬ ∃ i, i ≤ bound ∧ P i) := by
  have hF : ∀ k, hit k = false → ¬ P k := by
    intro k hk hPk
    rw [(hP k).mpr hPk] at hk
    exact absurd hk (by decide)
  rcases scan_down_cases hit bound (Or.inl hb) fuel bound (le_refl _) hfuel with
    ⟨p, hp, h1, h2, h3⟩ | ⟨hn, h4⟩
  · refine ⟨fun _ => ⟨p, hp, h1, (hP p).mp h2, ?_⟩, ?_⟩
    · intro k hk1 hPk
      by_contra hlt
      exact hF k (h3 k (by omega) hk1) hPk
    · rw [hp]
      constructor
      · intro h
        have : p = npos := Option.some.inj h
        omega
      · intro h
        exact absurd ⟨p, h1, (hP p).mp h2⟩ h
  · refine ⟨?_, ?_⟩
    · rintro ⟨i, hi1, hPi⟩
      exact absurd hPi (hF i (h4 i hi1))
    · refine ⟨fun _ => ?_, fun _ => hn⟩
      rintro ⟨i, hi1, hPi⟩
      exact hF i (h4 i hi1) hPi

/-- The last position that `find_last_of` and `find_last_not_of` look at. -/
theorem last_pos_eq (V : simple_string_view) (pos : Nat) (hV : V.size_ ≤ npos)
    (h0 : V.size_ ≠ 0) :
    min pos (size_sub V.size_ 1) < npos ∧
    min pos (size_sub V.size_ 1) + 2 ≤ V.size_ + 2 ∧
    (∀ i, i ≤ min pos (size_sub V.size_ 1) ↔ i ≤ pos ∧ i < V.size_) := by
  rw [size_sub_of_le hV (by omega)]
  refine ⟨by omega, by omega, ?_⟩
  intro i
  omega

/-! ## The character-set searches -/

/-- The method `find_first_of` returns the least index in `[pos, size)` whose
byte is in the set, and `npos` exactly when there is none. -/
theorem find_first_of_result (V v : simple_string_view) (pos : Nat) (hV : V.size_ ≤ npos) :
    ((∃ i, pos ≤ i ∧ i < V.size_ ∧ in_set v (V.index i)) →
      ∃ p, V.find_first_of v pos = some p ∧ pos ≤ p ∧ p < V.size_ ∧ in_set v (V.index p) ∧
        ∀ k, pos ≤ k → k < V.size_ → in_set v (V.index k) → p ≤ k) ∧
    (V.find_first_of v pos = some npos ↔
      ¬ ∃ i, pos ≤ i ∧ i < V.size_ ∧ in_set v (V.index i)) := by
  unfold simple_string_view.find_first_of
  rw [find_first_of_loop_eq_scan]
  exact scan_up_result (fun i => some_char_eq v.data_ v.size_ (V.index i))
    (fun i => in_set v (V.index i)) (fun k => some_char_eq_in_set v (V.index k))
    V.size_ pos hV

/-- Claim C12.  For every view `V` (its size a `size_t`), character set `v` and
start `pos`: `find_first_of(v, pos)` returns the smallest index `i` with
`pos <= i < V.size()` whose byte `V[i]` is in `v`, and returns `npos` exactly
when there is no such index, so whenever `v` is empty, `V` is empty or
`pos >= V.size()`. -/
theorem find_first_of_first (V v : simple_string_view) (pos : Nat) (hV : V.size_ ≤ npos) :
    ((∃ i, pos ≤ i ∧ i < V.size_ ∧ in_set v (V.index i)) →
      ∃ p, V.find_first_of v pos = some p ∧ pos ≤ p ∧ p < V.size_ ∧ in_set v (V.index p) ∧
        ∀ k, pos ≤ k → k < V.size_ → in_set v (V.index k) → p ≤ k) ∧
    (V.find_first_of v pos = some npos ↔
      ¬ ∃ i, pos ≤ i ∧ i < V.size_ ∧ in_set v (V.index i)) ∧
    (v.size_ = 0 → V.find_first_of v pos = some npos) ∧
    (V.size_ = 0 → V.find_first_of v pos = some npos) ∧
    (pos ≥ V.size_ → V.find_first_of v pos = some npos) := by
  have hres := find_first_of_result V v pos hV
  refine ⟨hres.1, hres.2, ?_, ?_, ?_⟩
  · intro hv
    apply hres.2.mpr
    rintro ⟨i, _, _, j, hj, _⟩
    omega
  · intro h0
    apply hres.2.mpr
    rintro ⟨i, _, hi, _⟩
    omega
  · intro hpos
    apply hres.2.mpr
    rintro ⟨i, hi1, hi2, _⟩
    omega

/-- The statement of `find_first_of_first` on `"hello world"`: the first byte
from `"ow"` is at 4, from 5 on it is at 6, and no byte is from `"xyz"`. -/
theorem find_first_of_first_witness :
    hello_world.size_ ≤ npos ∧
    hello_world.find_first_of (of_string (bytes "ow")) 0 = some 4 ∧
    hello_world.find_first_of (of_string (bytes "ow")) 5 = some 6 ∧
    hello_world.find_first_of (of_string (bytes "xyz")) 0 = some npos ∧
    ¬ ∃ i, 0 ≤ i ∧ i < hello_world.size_ ∧
      in_set (of_string (bytes "xyz")) (hello_world.index i) :=
  ⟨by decide, by decide, by decide, by decide,
    (find_first_of_first hello_world (of_string (bytes "xyz")) 0 (by decide)).2.1.mp
      (by decide)⟩

/-- Claim C14.  For every view `V` (its size a `size_t`), character set `v` and
start `pos`: `find_first_not_of(v, pos)` returns the smallest index `i` with
`pos <= i < V.size()` whose byte `V[i]` differs from every byte of `v`, and
returns `npos` exactly when there is no such index; with an empty `v` it
returns `pos` whenever `pos < V.size()`. -/
theorem find_first_not_of_first (V v : simple_string_view) (pos : Nat)
    (hV : V.size_ ≤ npos) :
    ((∃ i, pos ≤ i ∧ i < V.size_ ∧ ¬ in_set v (V.index i)) →
      ∃ p, V.find_first_not_of v pos = some p ∧ pos ≤ p ∧ p < V.size_ ∧
        ¬ in_set v (V.index p) ∧
        ∀ k, pos ≤ k → k < V.size_ → ¬ in_set v (V.index k) → p ≤ k) ∧
    (V.find_first_not_of v pos = some npos ↔
      ¬ ∃ i, pos ≤ i ∧ i < V.size_ ∧ ¬ in_set v (V.index i)) ∧
    (v.size_ = 0 → pos < V.size_ → V.find_first_not_of v pos = some pos) := by
  have hres := scan_up_result (fun i => no_char_eq v.data_ v.size_ (V.index i))
    (fun i => ¬ in_set v (V.index i)) (fun k => no_char_eq_in_set v (V.index k))
    V.size_ pos hV
  unfold simple_string_view.find_first_not_of
  rw [find_first_not_of_loop_eq_scan]
  refine ⟨hres.1, hres.2, ?_⟩
  intro hv hpos
  have hout : ¬ in_set v (V.index pos) := by
    rintro ⟨j, hj, _⟩
    omega
  obtain ⟨p, hp, h1, _, _, h4⟩ := hres.1 ⟨pos, le_refl _, hpos, hout⟩
  have hle := h4 pos (le_refl _) hpos hout
  have hpp : p = pos := by omega
  rw [hp, hpp]

/-- The statement of `find_first_not_of_first` on `"hello world"`: the first
byte outside `"hel"` is at 4, and every byte is in `"helo wrd"`. -/
theorem find_first_not_of_first_witness :
    hello_world.size_ ≤ npos ∧
    hello_world.find_first_not_of (of_string (bytes "hel")) 0 = some 4 ∧
    hello_world.find_first_not_of (of_string (bytes "helo wrd")) 0 = some npos ∧
    hello_world.find_first_not_of (of_string []) 3 = some 3 :=
  ⟨by decide, by decide, by decide,
    (find_first_not_of_first hello_world (of_string []) 3 (by decide)).2.2 rfl (by decide)⟩

/-- The result of a downward scan from the last position of a non-empty view:
the greatest accepted index `i` with `i <= pos` and `i < size`, and `npos`
exactly when there is none. -/
theorem scan_down_last_pos (hit : Nat → Bool) (P : Nat → Prop)
    (hP : ∀ k, hit k = true ↔ P k) (V : simple_string_view) (pos : Nat)
    (hV : V.size_ ≤ npos) (h0 : V.size_ ≠ 0) :
    ((∃ i, i ≤ pos ∧ i < V.size_ ∧ P i) →
      ∃ p, scan_down hit (min pos (size_sub V.size_ 1)) (V.size_ + 2)
          (min pos (size_sub V.size_ 1)) = some p ∧ p ≤ pos ∧ p < V.size_ ∧ P p ∧
        ∀ k, k ≤ pos → k < V.size_ → P k → k ≤ p) ∧
    (scan_down hit (min pos (size_sub V.size_ 1)) (V.size_ + 2)
        (min pos (size_sub V.size_ 1)) = some npos ↔
      ¬ ∃ i, i ≤ pos ∧ i < V.size_ ∧ P i) := by
  obtain ⟨hb, hfuel, hrange⟩ := last_pos_eq V pos hV h0
  have hres := scan_down_result hit P hP (min pos (size_sub V.size_ 1)) (V.size_ + 2) hb hfuel
  have hiff : (∃ i, i ≤ min pos (size_sub V.size_ 1) ∧ P i) ↔
      ∃ i, i ≤ pos ∧ i < V.size_ ∧ P i := by
    constructor
    · rintro ⟨i, hi, hPi⟩
      exact ⟨i, ((hrange i).mp hi).1, ((hrange i).mp hi).2, hPi⟩
    · rintro ⟨i, hi1, hi2, hPi⟩
      exact ⟨i, (hrange i).mpr ⟨hi1, hi2⟩, hPi⟩
  refine ⟨?_, ?_⟩
  · intro hex
    obtain ⟨p, hp, h1, h2, h3⟩ := hres.1 (hiff.mpr hex)
    exact ⟨p, hp, ((hrange p).mp h1).1, ((hrange p).mp h1).2, h2,
      fun k hk1 hk2 hPk => h3 k ((hrange k).mpr ⟨hk1, hk2⟩) hPk⟩
  · rw [hres.2, hiff]

/-- The method `find_last_of` returns the greatest index `i` with `i <= pos`
and `i < size` whose byte is in the set, and `npos` exactly when there is
none. -/
theorem find_last_of_result (V v : simple_string_view) (pos : Nat) (hV : V.size_ ≤ npos) :
    ((∃ i, i ≤ pos ∧ i < V.size_ ∧ in_set v (V.index i)) →
      ∃ p, V.find_last_of v pos = some p ∧ p ≤ pos ∧ p < V.size_ ∧ in_set v (V.index p) ∧
        ∀ k, k ≤ pos → k < V.size_ → in_set v (V.index k) → k ≤ p) ∧
    (V.find_last_of v pos = some npos ↔
      ¬ ∃ i, i ≤ pos ∧ i < V.size_ ∧ in_set v (V.index i)) := by
  unfold simple_string_view.find_last_of
  by_cases h0 : V.size_ = 0
  · rw [if_pos h0]
    refine ⟨?_, ⟨fun _ => ?_, fun _ => rfl⟩⟩
    · rintro ⟨i, _, hi, _⟩
      omega
    · rintro ⟨i, _, hi, _⟩
      omega
  · rw [if_neg h0]
    simp only
    rw [find_last_of_loop_eq_scan]
    exact scan_down_last_pos (fun i => some_char_eq v.data_ v.size_ (V.index i))
      (fun i => in_set v (V.index i)) (fun k => some_char_eq_in_set v (V.index k))
      V pos hV h0

/-- The method `find_last_not_of` returns the greatest index `i` with
`i <= pos` and `i < size` whose byte is outside the set, and `npos` exactly
when there is none. -/
theorem find_last_not_of_result (V v : simple_string_view) (pos : Nat)
    (hV : V.size_ ≤ npos) :
    ((∃ i, i ≤ pos ∧ i < V.size_ ∧ ¬ in_set v (V.index i)) →
      ∃ p, V.find_last_not_of v pos = some p ∧ p ≤ pos ∧ p < V.size_ ∧
        ¬ in_set v (V.index p) ∧
        ∀ k, k ≤ pos → k < V.size_ → ¬ in_set v (V.index k) → k ≤ p) ∧
    (V.find_last_not_of v pos = some npos ↔
      ¬ ∃ i, i ≤ pos ∧ i < V.size_ ∧ ¬ in_set v (V.index i)) := by
  unfold simple_string_view.find_last_not_of
  by_cases h0 : V.size_ = 0
  · rw [if_pos h0]
    refine ⟨?_, ⟨fun _ => ?_, fun _ => rfl⟩⟩
    · rintro ⟨i, _, hi, _⟩
      omega
    · rintro ⟨i, _, hi, _⟩
      omega
  · rw [if_neg h0]
    simp only
    rw [find_last_not_of_loop_eq_scan]
    exact scan_down_last_pos (fun i => no_char_eq v.data_ v.size_ (V.index i))
      (fun i => ¬ in_set v (V.index i)) (fun k => no_char_eq_in_set v (V.index k))
      V pos hV h0

/-- Claim C13.  For every view `V` (its size a `size_t`), character set `v` and
position `pos`: `find_last_of(v, pos)` returns the largest index `i` with
`i <= pos` and `i < V.size()` whose byte `V[i]` is in `v`, and returns `npos`
exactly when there is no such index, so whenever `V` is empty or `v` is
empty. -/
theorem find_last_of_last (V v : simple_string_view) (pos : Nat) (hV : V.size_ ≤ npos) :
    ((∃ i, i ≤ pos ∧ i < V.size_ ∧ in_set v (V.index i)) →
      ∃ p, V.find_last_of v pos = some p ∧ p ≤ pos ∧ p < V.size_ ∧ in_set v (V.index p) ∧
        ∀ k, k ≤ pos → k < V.size_ → in_set v (V.index k) → k ≤ p) ∧
    (V.find_last_of v pos = some npos ↔
      ¬ ∃ i, i ≤ pos ∧ i < V.size_ ∧ in_set v (V.index i)) ∧
    (V.size_ = 0 → V.find_last_of v pos = some npos) ∧
    (v.size_ = 0 → V.find_last_of v pos = some npos) := by
  have hres := find_last_of_result V v pos hV
  refine ⟨hres.1, hres.2, ?_, ?_⟩
  · intro h0
    apply hres.2.mpr
    rintro ⟨i, _, hi, _⟩
    omega
  · intro hv
    apply hres.2.mpr
    rintro ⟨i, _, _, j, hj, _⟩
    omega

/-- The statement of `find_last_of_last` on `"hello world"`: the last byte from
`"ow"` is at 7, up to 5 it is at 4, and no byte is from `"xyz"`. -/
theorem find_last_of_last_witness :
    hello_world.size_ ≤ npos ∧
    hello_world.find_last_of (of_string (bytes "ow")) npos = some 7 ∧
    hello_world.find_last_of (of_string (bytes "ow")) 5 = some 4 ∧
    hello_world.find_last_of (of_string (bytes "xyz")) npos = some npos ∧
    ¬ ∃ i, i ≤ npos ∧ i < hello_world.size_ ∧
      in_set (of_string (bytes "xyz")) (hello_world.index i) :=
  ⟨by decide, by decide, by decide, by decide,
    (find_last_of_last hello_world (of_string (bytes "xyz")) npos (by decide)).2.1.mp
      (by decide)⟩

/-- Claim C15.  For every view `V` (its size a `size_t`), character set `v` and
position `pos`: `find_last_not_of(v, pos)` returns the largest index `i` with
`i <= pos` and `i < V.size()` whose byte `V[i]` differs from every byte of `v`,
and returns `npos` exactly when there is no such index, so whenever `V` is
empty; with an empty `v` on a non-empty view it returns
`min(pos, V.size() - 1)`. -/
theorem find_last_not_of_last (V v : simple_string_view) (pos : Nat)
    (hV : V.size_ ≤ npos) :
    ((∃ i, i ≤ pos ∧ i < V.size_ ∧ ¬ in_set v (V.index i)) →
      ∃ p, V.find_last_not_of v pos = some p ∧ p ≤ pos ∧ p < V.size_ ∧
        ¬ in_set v (V.index p) ∧
        ∀ k, k ≤ pos → k < V.size_ → ¬ in_set v (V.index k) → k ≤ p) ∧
    (V.find_last_not_of v pos = some npos ↔
      ¬ ∃ i, i ≤ pos ∧ i < V.size_ ∧ ¬ in_set v (V.index i)) ∧
    (V.size_ = 0 → V.find_last_not_of v pos = some npos) ∧
    (v.size_ = 0 → V.size_ ≠ 0 →
      V.find_last_not_of v pos = some (min pos (V.size_ - 1))) := by
  have hres := find_last_not_of_result V v pos hV
  refine ⟨hres.1, hres.2, ?_, ?_⟩
  · intro h0
    apply hres.2.mpr
    rintro ⟨i, _, hi, _⟩
    omega
  · intro hv h0
    have hout : ∀ k, ¬ in_set v (V.index k) := by
      rintro k ⟨j, hj, _⟩
      omega
    obtain ⟨p, hp, h1, h2, _, h4⟩ :=
      hres.1 ⟨min pos (V.size_ - 1), Nat.min_le_left _ _, by omega, hout _⟩
    have hle := h4 (min pos (V.size_ - 1)) (Nat.min_le_left _ _) (by omega) (hout _)
    have hpp : p = min pos (V.size_ - 1) := by omega
    rw [hp, hpp]

/-- The statement of `find_last_not_of_last` on `"hello world"`: the last byte
outside `"dl"` is at 8, and with the empty set the answer is 10. -/
theorem find_last_not_of_last_witness :
    hello_world.size_ ≤ npos ∧
    hello_world.find_last_not_of (of_string (bytes "dl")) npos = some 8 ∧
    hello_world.find_last_not_of (of_string (bytes "helo wrd")) npos = some npos ∧
    hello_world.find_last_not_of (of_string []) npos = some (min npos (hello_world.size_ - 1)) :=
  ⟨by decide, by decide, by decide,
    (find_last_not_of_last hello_world (of_string []) npos (by decide)).2.2.2 rfl (by decide)⟩

/-! ## `rfind` -/

/-- The method `rfind` returns: either the last occurrence of the needle at or
before `pos`, or `npos` when there is none. -/
theorem rfind_cases (V v : simple_string_view) (pos : Nat) (hV : V.size_ ≤ npos) :
    (∃ p, V.rfind v pos = some p ∧ p ≤ pos ∧ occurs_at V v p ∧
      ∀ k, p < k → k ≤ pos → ¬ occurs_at V v k) ∨
    (V.rfind v pos = some npos ∧ ∀ k, k ≤ pos → ¬ occurs_at V v k) := by
  unfold simple_string_view.rfind
  by_cases hearly : v.size_ > V.size_
  · rw [if_pos hearly]
    right
    refine ⟨rfl, ?_⟩
    rintro k _ ⟨hocc, _⟩
    omega
  · rw [if_neg hearly]
    simp only
    rw [size_sub_of_le hV (by omega), rfind_loop_eq_scan]
    have hhit : ∀ k, decide (0 = traits_compare v.data_ (V.data_.add k) v.size_) = true ↔
        ∀ j, j < v.size_ → V.index (k + j) = v.index j := by
      intro k
      rw [decide_eq_true_iff]
      exact traits_compare_hit_iff V v k
    have hmiss : ∀ k, decide (0 = traits_compare v.data_ (V.data_.add k) v.size_) = false →
        ¬ ∀ j, j < v.size_ → V.index (k + j) = v.index j := by
      intro k hk h
      rw [(hhit k).mpr h] at hk
      exact absurd hk (by decide)
    have hb : V.size_ - v.size_ < npos ∨
        ∀ k, decide (0 = traits_compare v.data_ (V.data_.add k) v.size_) = true := by
      by_cases hv : v.size_ = 0
      · right
        intro k
        apply (hhit k).mpr
        intro j hj
        omega
      · left
        omega
    rcases scan_down_cases _ (V.size_ - v.size_) hb (V.size_ + 2)
        (min pos (V.size_ - v.size_)) (Nat.min_le_right _ _) (by omega) with
      ⟨p, hp, h1, h2, h3⟩ | ⟨hn, h4⟩
    · left
      refine ⟨p, hp, by omega, ⟨by omega, (hhit p).mp h2⟩, ?_⟩
      rintro k hk1 hk2 ⟨hr, hocc⟩
      exact hmiss k (h3 k hk1 (by omega)) hocc
    · right
      refine ⟨hn, ?_⟩
      rintro k hk ⟨hr, hocc⟩
      exact hmiss k (h4 k (by omega)) hocc

/-- Claim C11.  For every view `V`, needle `v` and position `pos`: if the
needle occurs at or before `pos`, `rfind` returns the largest index `i` with
`i <= pos` and `i + v.size() <= V.size()` at which the bytes of `V` equal `v`;
`rfind` returns `npos` exactly when there is no such index, so whenever
`v.size() > V.size()`; and an empty needle yields `min(pos, V.size())`.  A view
references `V.size()` characters of an array, and no array has as many bytes as
the maximum `size_t` value, so `V.size()` is below `npos`. -/
theorem rfind_last_occurrence (V v : simple_string_view) (pos : Nat)
    (hV : V.size_ < npos) :
    ((∃ i, i ≤ pos ∧ occurs_at V v i) →
      ∃ p, V.rfind v pos = some p ∧ p ≤ pos ∧ occurs_at V v p ∧
        ∀ k, k ≤ pos → occurs_at V v k → k ≤ p) ∧
    (V.rfind v pos = some npos ↔ ¬ ∃ i, i ≤ pos ∧ occurs_at V v i) ∧
    (v.size_ > V.size_ → V.rfind v pos = some npos) ∧
    (v.size_ = 0 → V.rfind v pos = some (min pos V.size_)) := by
  have hcases := rfind_cases V v pos (Nat.le_of_lt hV)
  have hnone : (¬ ∃ i, i ≤ pos ∧ occurs_at V v i) → V.rfind v pos = some npos := by
    intro hno
    rcases hcases with ⟨p, _, h1, h2, _⟩ | ⟨hn, _⟩
    · exact absurd ⟨p, h1, h2⟩ hno
    · exact hn
  refine ⟨?_, ⟨?_, hnone⟩, ?_, ?_⟩
  · rintro ⟨i, hi, hocc⟩
    rcases hcases with ⟨p, hp, h1, h2, h3⟩ | ⟨_, hno⟩
    · refine ⟨p, hp, h1, h2, ?_⟩
      intro k hk hkocc
      by_contra hlt
      exact h3 k (by omega) hk hkocc
    · exact absurd hocc (hno i hi)
  · intro hfind
    rcases hcases with ⟨p, hp, _, h2, _⟩ | ⟨_, hno⟩
    · rw [hp] at hfind
      have hpn : p = npos := Option.some.inj hfind
      have hin := h2.1
      omega
    · rintro ⟨i, hi, hocc⟩
      exact hno i hi hocc
  · intro hbig
    apply hnone
    rintro ⟨i, _, hocc, _⟩
    omega
  · intro hv
    have hocc : occurs_at V v (min pos V.size_) := by
      refine ⟨by omega, ?_⟩
      intro j hj
      omega
    rcases hcases with ⟨p, hp, h1, h2, h3⟩ | ⟨_, hno⟩
    · rw [hp]
      by_cases hpp : p = min pos V.size_
      · rw [hpp]
      · have hle := h2.1
        exact absurd hocc (h3 (min pos V.size_) (by omega) (by omega))
    · exact absurd hocc (hno _ (by omega))

/-- The statement of `rfind_last_occurrence` on `"hello world"`: the last
`"o"` is at 7, the last one up to 6 is at 4, `"xyz"` occurs nowhere and gives
`npos`, and the empty needle yields 11. -/
theorem rfind_last_occurrence_witness :
    hello_world.size_ < npos ∧
    hello_world.rfind (of_string (bytes "o")) npos = some 7 ∧
    hello_world.rfind (of_string (bytes "o")) 6 = some 4 ∧
    hello_world.rfind (of_string (bytes "xyz")) npos = some npos ∧
    hello_world.rfind (of_string []) npos = some (min npos hello_world.size_) ∧
    (¬ ∃ i, i ≤ npos ∧ occurs_at hello_world (of_string (bytes "xyz")) i) :=
  ⟨by decide, by decide, by decide, by decide,
    (rfind_last_occurrence hello_world (of_string []) npos (by decide)).2.2.2 rfl,
    (rfind_last_occurrence hello_world (of_string (bytes "xyz")) npos (by decide)).2.1.mp
      (by decide)⟩

/-! ## `copy` -/

/-- What `char_traits::copy` leaves in the destination array: the length is
kept, the `n` cells from `dest` on that lie in the array hold the source
characters, and every other cell is untouched. -/
theorem traits_copy_spec (n : Nat) :
    ∀ (dest src : CharPtr),
      (traits_copy dest src n).length = dest.buf.length ∧
      (∀ i, i < n → dest.off + i < dest.buf.length →
        (traits_copy dest src n)[dest.off + i]? = some (src.add i).deref) ∧
      (∀ j, j < dest.off ∨ dest.off + n ≤ j →
        (traits_copy dest src n)[j]? = dest.buf[j]?) := by
  induction n with
  | zero =>
    intro dest src
    refine ⟨rfl, ?_, fun _ _ => rfl⟩
    intro i hi
    omega
  | succ n ih =>
    intro dest src
    unfold traits_copy
    obtain ⟨hlen, hwr, hun⟩ := ih ⟨dest.buf.set dest.off src.deref, dest.off + 1⟩ (src.add 1)
    simp only [List.length_set, CharPtr.add_add] at hlen hwr hun
    refine ⟨hlen, ?_, ?_⟩
    · intro i hi hroom
      cases i with
      | zero =>
        rw [Nat.add_zero] at hroom
        show (traits_copy ⟨dest.buf.set dest.off src.deref, dest.off + 1⟩ (src.add 1) n)[dest.off]? =
          some src.deref
        rw [hun dest.off (Or.inl (Nat.lt_succ_self _)), List.getElem?_set, if_pos rfl,
          if_pos hroom]
      | succ i =>
        have := hwr i (by omega) (by omega)
        rw [Nat.add_comm 1 i, Nat.add_assoc, Nat.add_comm 1 i] at this
        exact this
    · intro j hj
      rw [hun j (by omega), List.getElem?_set_ne (by omega)]

/-- Claim C16.  For every view `V` (its size a `size_t`), destination `dest`,
`count` and `pos`: if `pos > V.size()`, `copy` throws `std::out_of_range` and
the destination array is unchanged; otherwise it returns
`r = min(count, V.size() - pos)`, the bytes `dest[0]`, ..., `dest[r - 1]` that
lie in the destination array become `V[pos]`, ..., `V[pos + r - 1]`, and the
bytes `dest[i]` with `i >= r`, like the bytes in front of `dest`, are
unchanged. -/
theorem copy_bounded (V : simple_string_view) (dest : CharPtr) (count pos : Nat)
    (hV : V.size_ ≤ npos) :
    (pos > V.size →
      (∃ e, (V.copy dest count pos).2 = Except.error e) ∧
      (V.copy dest count pos).1 = dest.buf) ∧
    (pos ≤ V.size →
      (V.copy dest count pos).2 = Except.ok (min count (V.size - pos)) ∧
      (V.copy dest count pos).1.length = dest.buf.length ∧
      (∀ i, i < min count (V.size - pos) → dest.off + i < dest.buf.length →
        (CharPtr.add ⟨(V.copy dest count pos).1, dest.off⟩ i).deref = V.index (pos + i)) ∧
      (∀ i, min count (V.size - pos) ≤ i →
        (CharPtr.add ⟨(V.copy dest count pos).1, dest.off⟩ i).deref = (dest.add i).deref) ∧
      (∀ j, j < dest.off → (V.copy dest count pos).1[j]? = dest.buf[j]?)) := by
  constructor
  · intro hpos
    have hthrow : V.copy dest count pos =
        (dest.buf, Except.error ⟨"invalid copy pos"⟩) := by
      unfold simple_string_view.copy
      rw [if_pos hpos]
    rw [hthrow]
    exact ⟨⟨_, rfl⟩, rfl⟩
  · intro hpos
    have hpos' : ¬ pos > V.size := Nat.not_lt.mpr hpos
    have hpos2 : pos ≤ V.size_ := hpos
    have hok : V.copy dest count pos =
        (traits_copy dest (V.data_.add pos) (min count (V.size - pos)),
          Except.ok (min count (V.size - pos))) := by
      unfold simple_string_view.copy
      rw [if_neg hpos']
      simp only
      rw [size_sub_of_le hV hpos2]
      rfl
    rw [hok]
    obtain ⟨hlen, hwr, hun⟩ :=
      traits_copy_spec (min count (V.size - pos)) dest (V.data_.add pos)
    refine ⟨rfl, hlen, ?_, ?_, ?_⟩
    · intro i hi hroom
      show (traits_copy dest (V.data_.add pos) (min count (V.size - pos))).getD
        (dest.off + i) 0 = V.data_.buf.getD (V.data_.off + (pos + i)) 0
      rw [List.getD_eq_getElem?_getD, hwr i hi hroom]
      simp [CharPtr.add, CharPtr.deref, Nat.add_assoc]
    · intro i hi
      show (traits_copy dest (V.data_.add pos) (min count (V.size - pos))).getD
        (dest.off + i) 0 = dest.buf.getD (dest.off + i) 0
      rw [List.getD_eq_getElem?_getD, List.getD_eq_getElem?_getD,
        hun (dest.off + i) (Or.inr (by omega))]
    · intro j hj
      exact hun j (Or.inl hj)

/-- The statement of `copy_bounded` on `"hello world"` and a destination of
eight dots entered at its third byte: `copy(dest, 3, 6)` returns 3 and leaves
`"..wor..."`; `copy(dest, 3, 12)` throws and leaves the dots. -/
theorem copy_bounded_witness :
    hello_world.size_ ≤ npos ∧
    hello_world.copy dots 3 6 = (bytes "..wor...", Except.ok 3) ∧
    ((∃ e, (hello_world.copy dots 3 12).2 = Except.error e) ∧
      (hello_world.copy dots 3 12).1 = dots.buf) :=
  ⟨by decide, rfl, (copy_bounded hello_world dots 3 12 (by decide)).1 (by decide)⟩

/-! ## `remove_prefix` and `remove_suffix` -/

/-- Claim C17.  For every view `V` (its size a `size_t`) and every
`n <= V.size()`: after `remove_prefix(n)` the view has size `V.size() - n`, its
byte `i` is the former `V[n + i]`, and it is the view `V.substr(n)`; after
`remove_suffix(n)` the view has size `V.size() - n`, its byte `i` is the former
`V[i]`, and it is the view `V.substr(0, V.size() - n)`. -/
theorem remove_prefix_suffix_in_range (V : simple_string_view) (n : Nat)
    (hV : V.size_ ≤ npos) (hn : n ≤ V.size_) :
    (V.remove_prefix n).size = V.size_ - n ∧
    (∀ i, i < (V.remove_prefix n).size → (V.remove_prefix n).index i = V.index (n + i)) ∧
    V.substr n npos = Except.ok (V.remove_prefix n) ∧
    (V.remove_suffix n).size = V.size_ - n ∧
    (∀ i, i < (V.remove_suffix n).size → (V.remove_suffix n).index i = V.index i) ∧
    V.substr 0 (V.size_ - n) = Except.ok (V.remove_suffix n) := by
  have hpre : V.remove_prefix n = ⟨V.data_.add n, V.size_ - n⟩ := by
    unfold simple_string_view.remove_prefix
    rw [size_sub_of_le hV hn]
  have hsuf : V.remove_suffix n = ⟨V.data_, V.size_ - n⟩ := by
    unfold simple_string_view.remove_suffix
    rw [size_sub_of_le hV hn]
  refine ⟨?_, ?_, ?_, ?_, ?_, ?_⟩
  · rw [hpre]; rfl
  · intro i _
    rw [hpre]
    simp [simple_string_view.index]
  · rw [substr_ok V n npos hV hn, hpre]
    congr 2
    omega
  · rw [hsuf]; rfl
  · intro i _
    rw [hsuf]
    rfl
  · rw [substr_ok V 0 (V.size_ - n) hV (Nat.zero_le _), hsuf]
    congr 2
    omega

/-- The statement of `remove_prefix_suffix_in_range` on `"hello world"`:
`remove_prefix(6)` leaves `"world"` and `remove_suffix(6)` leaves `"hello"`. -/
theorem remove_prefix_suffix_in_range_witness :
    hello_world.size_ ≤ npos ∧ 6 ≤ hello_world.size_ ∧
    (hello_world.remove_prefix 6).to_string = bytes "world" ∧
    (hello_world.remove_suffix 6).to_string = bytes "hello" ∧
    hello_world.substr 6 npos = Except.ok (hello_world.remove_prefix 6) ∧
    hello_world.substr 0 (hello_world.size_ - 6) = Except.ok (hello_world.remove_suffix 6) :=
  ⟨by decide, by decide, by decide, by decide,
    (remove_prefix_suffix_in_range hello_world 6 (by decide) (by decide)).2.2.1,
    (remove_prefix_suffix_in_range hello_world 6 (by decide) (by decide)).2.2.2.2.2⟩

/-- Claim C18, as the source has it.  For every view `V` and count `n`, both
`size_t` values: the size after `remove_prefix(n)`, and likewise after
`remove_suffix(n)`, is at most the size before exactly when `n <= V.size()`,
and then it is `V.size() - n`; for `n > V.size()` the subtraction wraps and the
size becomes `V.size() + 2^64 - n`, which is more than before. -/
theorem trim_shrinks_iff (V : simple_string_view) (n : Nat)
    (hV : V.size_ ≤ npos) (hn : n ≤ npos) :
    ((V.remove_prefix n).size ≤ V.size ↔ n ≤ V.size) ∧
    ((V.remove_suffix n).size ≤ V.size ↔ n ≤ V.size) ∧
    (n ≤ V.size → (V.remove_prefix n).size = V.size - n ∧
      (V.remove_suffix n).size = V.size - n) ∧
    (V.size < n → (V.remove_prefix n).size = V.size + SIZE_MOD - n ∧
      (V.remove_suffix n).size = V.size + SIZE_MOD - n ∧ V.size < V.size + SIZE_MOD - n) := by
  have hsub : (n ≤ V.size_ → size_sub V.size_ n = V.size_ - n) ∧
      (V.size_ < n → size_sub V.size_ n = V.size_ + SIZE_MOD - n) := by
    unfold size_sub
    rw [npos_eq] at hV hn
    rw [SIZE_MOD_eq]
    constructor <;> intro h <;> omega
  have hmod : n < SIZE_MOD := by
    rw [npos_eq] at hn
    rw [SIZE_MOD_eq]
    omega
  unfold simple_string_view.remove_prefix simple_string_view.remove_suffix
    simple_string_view.size
  simp only
  refine ⟨?_, ?_, ?_, ?_⟩
  · by_cases h : n ≤ V.size_
    · rw [hsub.1 h]
      exact ⟨fun _ => h, fun _ => Nat.sub_le _ _⟩
    · rw [hsub.2 (by omega)]
      constructor <;> intro h' <;> omega
  · by_cases h : n ≤ V.size_
    · rw [hsub.1 h]
      exact ⟨fun _ => h, fun _ => Nat.sub_le _ _⟩
    · rw [hsub.2 (by omega)]
      constructor <;> intro h' <;> omega
  · intro h
    exact ⟨hsub.1 h, hsub.1 h⟩
  · intro h
    exact ⟨hsub.2 h, hsub.2 h, by omega⟩

/-- The statement of `trim_shrinks_iff` on `"hello world"`: trimming 11 bytes
leaves size 0, and trimming 12 bytes leaves size `npos`. -/
theorem trim_shrinks_iff_witness :
    hello_world.size_ ≤ npos ∧ 12 ≤ npos ∧
    (hello_world.remove_suffix 11).size = 0 ∧
    (hello_world.remove_suffix 12).size = npos ∧
    ((hello_world.remove_prefix 12).size ≤ hello_world.size ↔ 12 ≤ hello_world.size) :=
  ⟨by decide, by decide, by decide, by decide,
    (trim_shrinks_iff hello_world 12 (by decide) (by decide)).1⟩

/-- Claim C18 as written fails on the empty view with `n = 1`: the size after
`remove_prefix(1)` and after `remove_suffix(1)` is `npos`, not at most 0. -/
theorem trim_of_empty_view_grows :
    (empty_view.remove_prefix 1).size = npos ∧
    (empty_view.remove_suffix 1).size = npos ∧
    ¬ ((empty_view.remove_prefix 1).size ≤ empty_view.size) ∧
    ¬ ((empty_view.remove_suffix 1).size ≤ empty_view.size) := by
  decide

/-! ## The single-character searches -/

/-- The view `{&c, 1}` over one character. -/
theorem char_view_occurs (V : simple_string_view) (c : Byte) (i : Nat) :
    occurs_at V ⟨⟨[c], 0⟩, 1⟩ i ↔ i < V.size_ ∧ V.index i = c := by
  unfold occurs_at
  simp only
  constructor
  · rintro ⟨h1, h2⟩
    exact ⟨by omega, by simpa [simple_string_view.index, CharPtr.add, CharPtr.deref] using h2 0 Nat.one_pos⟩
  · rintro ⟨h1, h2⟩
    refine ⟨by omega, ?_⟩
    intro j hj
    have hj0 : j = 0 := by omega
    subst hj0
    simpa [simple_string_view.index, CharPtr.add, CharPtr.deref] using h2

theorem char_view_in_set (c x : Byte) :
    in_set ⟨⟨[c], 0⟩, 1⟩ x ↔ x = c := by
  unfold in_set
  simp only
  constructor
  · rintro ⟨j, hj, hx⟩
    have hj0 : j = 0 := by omega
    subst hj0
    exact hx.symm
  · intro h
    exact ⟨0, Nat.one_pos, h.symm⟩

/-- Claim C20.  For every view `V` (its size a `size_t`), character `c` and
position `pos`, the empty view and `pos >= V.size()` included:
`find(c, pos) = find_first_of(c, pos)` and `rfind(c, pos) = find_last_of(c, pos)`. -/
theorem char_searches_agree (V : simple_string_view) (c : Byte) (pos : Nat)
    (hV : V.size_ ≤ npos) :
    V.find_char c pos = V.find_first_of_char c pos ∧
    V.rfind_char c pos = V.find_last_of_char c pos := by
  unfold simple_string_view.find_char simple_string_view.find_first_of_char
    simple_string_view.rfind_char simple_string_view.find_last_of_char
  constructor
  · have hres := find_first_of_result V ⟨⟨[c], 0⟩, 1⟩ pos hV
    rcases find_cases V ⟨⟨[c], 0⟩, 1⟩ pos hV with ⟨p, hp, h1, h2, h3⟩ | ⟨hn, hno⟩
    · have hp2 := (char_view_occurs V c p).mp h2
      obtain ⟨q, hq, hq1, hq2, hq3, hq4⟩ :=
        hres.1 ⟨p, h1, hp2.1, (char_view_in_set c _).mpr hp2.2⟩
      have hqp : q ≤ p := hq4 p h1 hp2.1 ((char_view_in_set c _).mpr hp2.2)
      have hpq : p ≤ q := by
        by_contra hlt
        exact h3 q hq1 (by omega)
          ((char_view_occurs V c q).mpr ⟨hq2, (char_view_in_set c _).mp hq3⟩)
      have hqe : q = p := by omega
      rw [hp, hq, hqe]
    · rw [hn]
      symm
      apply hres.2.mpr
      rintro ⟨i, hi1, hi2, hi3⟩
      exact hno i hi1 ((char_view_occurs V c i).mpr ⟨hi2, (char_view_in_set c _).mp hi3⟩)
  · have hres := find_last_of_result V ⟨⟨[c], 0⟩, 1⟩ pos hV
    rcases rfind_cases V ⟨⟨[c], 0⟩, 1⟩ pos hV with ⟨p, hp, h1, h2, h3⟩ | ⟨hn, hno⟩
    · have hp2 := (char_view_occurs V c p).mp h2
      obtain ⟨q, hq, hq1, hq2, hq3, hq4⟩ :=
        hres.1 ⟨p, h1, hp2.1, (char_view_in_set c _).mpr hp2.2⟩
      have hpq : p ≤ q := hq4 p h1 hp2.1 ((char_view_in_set c _).mpr hp2.2)
      have hqp : q ≤ p := by
        by_contra hlt
        exact h3 q (by omega) hq1
          ((char_view_occurs V c q).mpr ⟨hq2, (char_view_in_set c _).mp hq3⟩)
      have hqe : q = p := by omega
      rw [hp, hq, hqe]
    · rw [hn]
      symm
      apply hres.2.mpr
      rintro ⟨i, hi1, hi2, hi3⟩
      exact hno i hi1 ((char_view_occurs V c i).mpr ⟨hi2, (char_view_in_set c _).mp hi3⟩)

/-- The statement of `char_searches_agree` on `"hello world"` and `'o'`, from
position 5, and on the empty view. -/
theorem char_searches_agree_witness :
    hello_world.size_ ≤ npos ∧
    hello_world.find_char 111 5 = some 7 ∧
    hello_world.rfind_char 111 5 = some 4 ∧
    empty_view.find_char 111 0 = some npos ∧
    empty_view.find_last_of_char 111 npos = some npos ∧
    (hello_world.find_char 111 5 = hello_world.find_first_of_char 111 5 ∧
      hello_world.rfind_char 111 5 = hello_world.find_last_of_char 111 5) :=
  ⟨by decide, by decide, by decide, by decide, by decide,
    char_searches_agree hello_world 111 5 (by decide)⟩

/-! ## Termination of the downward scans -/

/-- A downward scan that starts at `start`, under a bound below `npos`, has a
result as soon as the fuel is `start + 2`, and the result is `npos` when no
index from `start` down to 0 is accepted. -/
theorem scan_down_terminates (hit : Nat → Bool) (bound : Nat) (hb : bound < npos)
    (start : Nat) (hs : start ≤ bound) :
    ∃ r, (∀ fuel, start + 2 ≤ fuel → scan_down hit bound fuel start = some r) ∧
      ((∀ k, k ≤ start → hit k = false) → r = npos) := by
  rcases scan_down_cases hit bound (Or.inl hb) (start + 2) start hs (le_refl _) with
    ⟨p, hp, h1, h2, _⟩ | ⟨hn, _⟩
  · refine ⟨p, fun fuel hf => scan_down_mono hit bound _ _ _ hp fuel hf, ?_⟩
    intro hall
    rw [hall p h1] at h2
    exact absurd h2 (by decide)
  · exact ⟨npos, fun fuel hf => scan_down_mono hit bound _ _ _ hn fuel hf, fun _ => rfl⟩

/-- A downward scan that arrives at the index `npos`, under a bound below
`npos`, leaves the loop and returns `npos`. -/
theorem scan_down_exit (hit : Nat → Bool) (bound : Nat) (hb : bound < npos) (fuel : Nat) :
    scan_down hit bound (fuel + 1) npos = some npos := by
  unfold scan_down
  rw [if_neg (by omega)]

/-- Claim C19.  For every view `V` whose size is below the maximum `size_t`
value, every `v` and every `pos`, the scans `rfind`, `find_last_of` and
`find_last_not_of` return.  Decrementing index 0 gives `npos`; the upper bound
of each loop is below `npos`, so a loop that arrives at `npos` stops and
returns `npos`.  A loop that starts at index `s` has its result after at most
`s + 1` runs of its body, one for each index from `s` down to 0, and more fuel
does not change it.  Each scan returns `npos` when no index matches. -/
theorem downward_scans_terminate (V v : simple_string_view) (pos : Nat)
    (hV : V.size_ < npos) :
    size_sub 0 1 = npos ∧
    (∃ r, V.rfind v pos = some r) ∧
    (∃ r, V.find_last_of v pos = some r) ∧
    (∃ r, V.find_last_not_of v pos = some r) ∧
    (v.size_ ≤ V.size_ →
      size_sub V.size_ v.size_ < npos ∧
      (∀ fuel, rfind_loop V v (size_sub V.size_ v.size_) (fuel + 1) npos = some npos) ∧
      ∃ r, V.rfind v pos = some r ∧
        ∀ fuel, min pos (size_sub V.size_ v.size_) + 2 ≤ fuel →
          rfind_loop V v (size_sub V.size_ v.size_) fuel
            (min pos (size_sub V.size_ v.size_)) = some r) ∧
    (V.size_ ≠ 0 →
      min pos (size_sub V.size_ 1) < npos ∧
      (∀ fuel, find_last_of_loop V v (min pos (size_sub V.size_ 1)) (fuel + 1) npos =
        some npos) ∧
      ∃ r, V.find_last_of v pos = some r ∧
        ∀ fuel, min pos (size_sub V.size_ 1) + 2 ≤ fuel →
          find_last_of_loop V v (min pos (size_sub V.size_ 1)) fuel
            (min pos (size_sub V.size_ 1)) = some r) ∧
    (V.size_ ≠ 0 →
      min pos (size_sub V.size_ 1) < npos ∧
      (∀ fuel, find_last_not_of_loop V v (min pos (size_sub V.size_ 1)) (fuel + 1) npos =
        some npos) ∧
      ∃ r, V.find_last_not_of v pos = some r ∧
        ∀ fuel, min pos (size_sub V.size_ 1) + 2 ≤ fuel →
          find_last_not_of_loop V v (min pos (size_sub V.size_ 1)) fuel
            (min pos (size_sub V.size_ 1)) = some r) ∧
    ((∀ i, i ≤ pos → ¬ occurs_at V v i) → V.rfind v pos = some npos) ∧
    ((∀ i, i ≤ pos → i < V.size_ → ¬ in_set v (V.index i)) →
      V.find_last_of v pos = some npos) ∧
    ((∀ i, i ≤ pos → i < V.size_ → in_set v (V.index i)) →
      V.find_last_not_of v pos = some npos) := by
  have hV' : V.size_ ≤ npos := Nat.le_of_lt hV
  have hlast : V.size_ ≠ 0 → min pos (size_sub V.size_ 1) < npos ∧
      min pos (size_sub V.size_ 1) + 2 ≤ V.size_ + 2 := by
    intro h0
    obtain ⟨h1, h2, _⟩ := last_pos_eq V pos hV' h0
    exact ⟨h1, h2⟩
  have hrfind : v.size_ ≤ V.size_ →
      size_sub V.size_ v.size_ < npos ∧
      (∀ fuel, rfind_loop V v (size_sub V.size_ v.size_) (fuel + 1) npos = some npos) ∧
      ∃ r, V.rfind v pos = some r ∧
        ∀ fuel, min pos (size_sub V.size_ v.size_) + 2 ≤ fuel →
          rfind_loop V v (size_sub V.size_ v.size_) fuel
            (min pos (size_sub V.size_ v.size_)) = some r := by
    intro hv
    have hsub : size_sub V.size_ v.size_ = V.size_ - v.size_ := size_sub_of_le hV' hv
    have hb : size_sub V.size_ v.size_ < npos := by omega
    obtain ⟨r, hr, _⟩ := scan_down_terminates
      (fun i => decide (0 = traits_compare v.data_ (V.data_.add i) v.size_))
      (size_sub V.size_ v.size_) hb (min pos (size_sub V.size_ v.size_))
      (Nat.min_le_right _ _)
    refine ⟨hb, ?_, r, ?_, ?_⟩
    · intro fuel
      rw [rfind_loop_eq_scan]
      exact scan_down_exit _ _ hb fuel
    · unfold simple_string_view.rfind
      rw [if_neg (by omega)]
      simp only
      rw [rfind_loop_eq_scan]
      exact hr _ (by omega)
    · intro fuel hf
      rw [rfind_loop_eq_scan]
      exact hr fuel hf
  have hflo : V.size_ ≠ 0 →
      min pos (size_sub V.size_ 1) < npos ∧
      (∀ fuel, find_last_of_loop V v (min pos (size_sub V.size_ 1)) (fuel + 1) npos =
        some npos) ∧
      ∃ r, V.find_last_of v pos = some r ∧
        ∀ fuel, min pos (size_sub V.size_ 1) + 2 ≤ fuel →
          find_last_of_loop V v (min pos (size_sub V.size_ 1)) fuel
            (min pos (size_sub V.size_ 1)) = some r := by
    intro h0
    obtain ⟨hb, hfuel⟩ := hlast h0
    obtain ⟨r, hr, _⟩ := scan_down_terminates
      (fun i => some_char_eq v.data_ v.size_ (V.index i))
      (min pos (size_sub V.size_ 1)) hb (min pos (size_sub V.size_ 1)) (le_refl _)
    refine ⟨hb, ?_, r, ?_, ?_⟩
    · intro fuel
      rw [find_last_of_loop_eq_scan]
      exact scan_down_exit _ _ hb fuel
    · unfold simple_string_view.find_last_of
      rw [if_neg h0]
      simp only
      rw [find_last_of_loop_eq_scan]
      exact hr _ hfuel
    · intro fuel hf
      rw [find_last_of_loop_eq_scan]
      exact hr fuel hf
  have hflno : V.size_ ≠ 0 →
      min pos (size_sub V.size_ 1) < npos ∧
      (∀ fuel, find_last_not_of_loop V v (min pos (size_sub V.size_ 1)) (fuel + 1) npos =
        some npos) ∧
      ∃ r, V.find_last_not_of v pos = some r ∧
        ∀ fuel, min pos (size_sub V.size_ 1) + 2 ≤ fuel →
          find_last_not_of_loop V v (min pos (size_sub V.size_ 1)) fuel
            (min pos (size_sub V.size_ 1)) = some r := by
    intro h0
    obtain ⟨hb, hfuel⟩ := hlast h0
    obtain ⟨r, hr, _⟩ := scan_down_terminates
      (fun i => no_char_eq v.data_ v.size_ (V.index i))
      (min pos (size_sub V.size_ 1)) hb (min pos (size_sub V.size_ 1)) (le_refl _)
    refine ⟨hb, ?_, r, ?_, ?_⟩
    · intro fuel
      rw [find_last_not_of_loop_eq_scan]
      exact scan_down_exit _ _ hb fuel
    · unfold simple_string_view.find_last_not_of
      rw [if_neg h0]
      simp only
      rw [find_last_not_of_loop_eq_scan]
      exact hr _ hfuel
    · intro fuel hf
      rw [find_last_not_of_loop_eq_scan]
      exact hr fuel hf
  refine ⟨size_sub_zero_one, ?_, ?_, ?_, hrfind, hflo, hflno, ?_, ?_, ?_⟩
  · by_cases hv : v.size_ ≤ V.size_
    · obtain ⟨_, _, r, hr, _⟩ := hrfind hv
      exact ⟨r, hr⟩
    · refine ⟨npos, ?_⟩
      unfold simple_string_view.rfind
      rw [if_pos (by omega)]
  · by_cases h0 : V.size_ = 0
    · refine ⟨npos, ?_⟩
      unfold simple_string_view.find_last_of
      rw [if_pos h0]
    · obtain ⟨_, _, r, hr, _⟩ := hflo h0
      exact ⟨r, hr⟩
  · by_cases h0 : V.size_ = 0
    · refine ⟨npos, ?_⟩
      unfold simple_string_view.find_last_not_of
      rw [if_pos h0]
    · obtain ⟨_, _, r, hr, _⟩ := hflno h0
      exact ⟨r, hr⟩
  · intro hno
    rcases rfind_cases V v pos hV' with ⟨p, _, h1, h2, _⟩ | ⟨hn, _⟩
    · exact absurd h2 (hno p h1)
    · exact hn
  · intro hno
    apply (find_last_of_result V v pos hV').2.mpr
    rintro ⟨i, hi1, hi2, hi3⟩
    exact hno i hi1 hi2 hi3
  · intro hno
    apply (find_last_not_of_result V v pos hV').2.mpr
    rintro ⟨i, hi1, hi2, hi3⟩
    exact hi3 (hno i hi1 hi2)

/-- The statement of `downward_scans_terminate` on `"hello world"`: the three
scans for `"xyz"` run from index 10 or 8 down to 0 and return `npos`; with one
unit of fuel less than the indices need, the loop of `find_last_of` has not
finished. -/
theorem downward_scans_terminate_witness :
    hello_world.size_ < npos ∧
    hello_world.rfind (of_string (bytes "xyz")) npos = some npos ∧
    hello_world.find_last_of (of_string (bytes "xyz")) npos = some npos ∧
    hello_world.find_last_not_of (of_string (bytes "helo wrd")) npos = some npos ∧
    find_last_of_loop hello_world (of_string (bytes "xyz")) 10 12 10 = some npos ∧
    find_last_of_loop hello_world (of_string (bytes "xyz")) 10 11 10 = none ∧
    (∃ r, hello_world.find_last_of (of_string (bytes "ow")) 5 = some r) :=
  ⟨by decide, by decide, by decide, by decide, by decide, by decide,
    (downward_scans_terminate hello_world (of_string (bytes "ow")) 5 (by decide)).2.2.1⟩

end lokimq
